import Mathlib

/-!
Verification of the SearXNG AI-answers plugin (`ai_answers.py`).

This file shallowly embeds the parts of the plugin that the specification
talks about:

* the token verification of `handle_ai_stream` (`token.rsplit('.', 1)`,
  keyed hash comparison, TTL check with Python float semantics);
* the request dispatch of `handle_ai_stream` (warmup probe, 403 on bad
  token, 400 when no API key is configured);
* the prompt assembly (task selection between CONTINUE / FOLLOW-UP /
  ANSWER FIRST and the numbered instruction list);
* the two streaming decoders: `stream_gemini` (incremental UTF-8 decode
  plus concatenated-JSON `raw_decode` drain loop) and
  `stream_openai_compatible` (byte-line splitting, `data: ` prefixed
  SSE events, `[DONE]` sentinel).

Machine integers do not occur; Python strings are modelled as lists of
code points (`List Nat`) where surrogates may occur, and as `List Char` /
`String` where they cannot.  Python floats are modelled exactly, as
rationals extended with the three special values `inf`, `-inf`, `nan`
(the claims under test only exercise comparisons, which are exact).
-/

namespace AIAnswers

/-! ## Python float model (`float(ts)` and IEEE comparisons) -/

/-- A Python float as used by the token TTL check: an exact rational or
one of the special values.  Rounding to binary64 is irrelevant here
because only orderings against the integer `3600` are observed. -/
inductive PyFloat where
  | fin (q : ℚ)
  | inf
  | neginf
  | nan
deriving DecidableEq, Repr

/-- Subtraction on ℚ written with `mkRat` and integer arithmetic (equal
to `a - b`, see `ratSub_eq_sub`; spelt this way so that concrete tokens
evaluate inside `decide`). -/
def ratSub (a b : ℚ) : ℚ :=
  mkRat (a.num * (b.den : Int) - b.num * (a.den : Int)) (a.den * b.den)

/-- `now - v` for a finite `now` (as produced by `time.time()`), with
IEEE semantics on the special values. -/
def pySub (now : ℚ) (v : PyFloat) : PyFloat :=
  match v with
  | .fin q => .fin (ratSub now q)
  | .inf => .neginf
  | .neginf => .inf
  | .nan => .nan

/-- IEEE `a > b`: any comparison involving NaN is false. -/
def pyGT (a : PyFloat) (b : PyFloat) : Bool :=
  match a, b with
  | .nan, _ => false
  | _, .nan => false
  | .inf, .inf => false
  | .inf, _ => true
  | .neginf, _ => false
  | .fin _, .inf => false
  | .fin _, .neginf => true
  | .fin x, .fin y => decide (y < x)

/-- Whitespace stripped by Python `str.strip()` / `float()` (ASCII part). -/
def isPyWs (c : Char) : Bool :=
  c = ' ' || c = '\t' || c = '\n' || c = '\r' || c = '\x0b' || c = '\x0c'

/-- Strip `isPyWs` from both ends. -/
def stripWsChars (cs : List Char) : List Char :=
  ((cs.dropWhile isPyWs).reverse.dropWhile isPyWs).reverse

def digitsToNat (ds : List Char) : Nat :=
  ds.foldl (fun a c => a * 10 + (c.toNat - 48)) 0

def takeDigits (cs : List Char) : List Char × List Char :=
  (cs.takeWhile Char.isDigit, cs.dropWhile Char.isDigit)

/-- `m × 10^e` over ℚ, with `mkRat` (kernel-computable). -/
def ratScale (m : Nat) (e : Int) : ℚ :=
  if 0 ≤ e then mkRat (m * 10 ^ e.toNat) 1 else mkRat m (10 ^ (-e).toNat)

/-- The decimal part of Python `float()`: `digits [. digits] [(e|E) [sign] digits]`,
with at least one mantissa digit, consuming the whole input; the value
is `(intDigits.fracDigits) × 10^exp`.
(Digit-group underscores, permitted by CPython, are not modelled;
they only enlarge the set of accepted spellings.) -/
def parseDecimal (cs : List Char) : Option ℚ :=
  let p1 := takeDigits cs
  let p2 : List Char × List Char :=
    match p1.2 with
    | '.' :: rest => takeDigits rest
    | _ => ([], p1.2)
  if p1.1 = [] ∧ p2.1 = [] then none
  else
    let m : Nat := digitsToNat p1.1 * 10 ^ p2.1.length + digitsToNat p2.1
    match p2.2 with
    | [] => some (ratScale m (-(p2.1.length : Int)))
    | e :: rest =>
      if e = 'e' ∨ e = 'E' then
        let sgn : Int × List Char :=
          match rest with
          | '+' :: r => (1, r)
          | '-' :: r => (-1, r)
          | _ => (1, rest)
        let ed := takeDigits sgn.2
        if ed.1 = [] ∨ ed.2 ≠ [] then none
        else some (ratScale m (sgn.1 * (digitsToNat ed.1 : Int) - (p2.1.length : Int)))
      else none

/-- Python `float(s)`: strip whitespace, optional sign, then `inf`,
`infinity`, `nan` (case-insensitive) or a decimal literal. -/
def parseFloat (cs0 : List Char) : Option PyFloat :=
  let cs := stripWsChars cs0
  let signed : Bool × List Char :=
    match cs with
    | '+' :: r => (false, r)
    | '-' :: r => (true, r)
    | _ => (false, cs)
  let low := signed.2.map Char.toLower
  if low = "inf".data ∨ low = "infinity".data then
    some (if signed.1 then .neginf else .inf)
  else if low = "nan".data then some .nan
  else
    match parseDecimal signed.2 with
    | some q => some (.fin (if signed.1 then -q else q))
    | none => none

/-! ## Token verification (`handle_ai_stream`, the `try` block) -/

/-- `TOKEN_EXPIRY_SEC = 3600`. -/
def TOKEN_EXPIRY_SEC : ℚ := 3600

/-- `token.rsplit('.', 1)` restricted to the successful two-part unpack:
split at the last `'.'`; `none` when no dot occurs (Python raises
`ValueError` on unpacking the one-element list). -/
def rsplitDot : List Char → Option (List Char × List Char)
  | [] => none
  | c :: rest =>
    match rsplitDot rest with
    | some p => some (c :: p.1, p.2)
    | none => if c = '.' then some ([], rest) else none

/-- The token check of `handle_ai_stream`.  `hash` abstracts
`lambda s: hashlib.sha256(s.encode()).hexdigest()`; the code computes
`expected = hash(ts + secret)` and rejects when the signature differs or
`time.time() - float(ts) > TOKEN_EXPIRY_SEC`; every exception inside the
`try` block (failed unpack, failed `float`) also rejects. -/
def verifyToken (hash : List Char → List Char) (secret : List Char)
    (now : ℚ) (token : List Char) : Bool :=
  match rsplitDot token with
  | none => false
  | some (ts, sig) =>
    match parseFloat ts with
    | none => false
    | some v =>
      if sig ≠ hash (ts ++ secret) then false
      else if pyGT (pySub now v) (.fin TOKEN_EXPIRY_SEC) then false
      else true

/-! ## Request dispatch of `handle_ai_stream` -/

structure AIStreamRequest where
  warmup : Bool
  tk : List Char
  q : String
  lang : String
  context : String
  prev_answer : String

structure GatewayConfig where
  api_key : List Char
  secret : List Char

/-- The four response shapes `handle_ai_stream` can produce before (or
instead of) streaming. -/
inductive HandlerResponse where
  | warmupEmpty      -- `Response('', status=204)`
  | forbidden        -- `abort(403)`
  | missingKey       -- `Response("Missing API key or query", status=400)`
  | streamResponse   -- `Response(generator(), mimetype='text/event-stream', ...)`
deriving DecidableEq, Repr

def HandlerResponse.status : HandlerResponse → Nat
  | .warmupEmpty => 204
  | .forbidden => 403
  | .missingKey => 400
  | .streamResponse => 200

def HandlerResponse.body : HandlerResponse → String
  | .warmupEmpty => ""
  | .forbidden => "Forbidden"
  | .missingKey => "Missing API key or query"
  | .streamResponse => ""

/-- Result of the dispatch together with which side effects the control
path performs: whether the token-verification block ran and whether the
upstream provider is contacted (the streaming generator). -/
structure HandlerResult where
  response : HandlerResponse
  verifyAttempted : Bool
  upstreamCalled : Bool
deriving DecidableEq, Repr

/-- The dispatch structure of `handle_ai_stream`: warmup short-circuit,
then token verification (403 on failure), then the API-key presence
check (400), then the streaming response. -/
def handleAIStream (cfg : GatewayConfig) (hash : List Char → List Char)
    (now : ℚ) (req : AIStreamRequest) : HandlerResult :=
  if req.warmup then ⟨.warmupEmpty, false, false⟩
  else if verifyToken hash cfg.secret now req.tk = false then ⟨.forbidden, true, false⟩
  else if cfg.api_key = [] then ⟨.missingKey, true, false⟩
  else ⟨.streamResponse, true, true⟩

/-! ## Prompt assembly (task selection and instruction list) -/

def continuationTask : String :=
  "CONTINUE: Pick up exactly where previous answer stopped. No repetition. Seamless flow."

def followUpTask : String :=
  "FOLLOW-UP: Address the new question using prior context. Prioritize the new query."

def answerFirstTask : String :=
  "ANSWER FIRST: Lead with the direct answer. No preamble, no context-setting."

/-- `if q == "Continue": ... elif prev_answer: ... else ...` -/
def taskFor (q prev_answer : String) : String :=
  if q = "Continue" then continuationTask
  else if prev_answer ≠ "" then followUpTask
  else answerFirstTask

def coreRules (target_words : Nat) : List String :=
  [ "DENSITY 4/5: Expert-briefing level. No filler, no transitions. Every sentence = new information.",
    "BREVITY: " ++ toString target_words ++ " words max. Complete, not verbose.",
    "CITATIONS: Cite format is [n] for facts from grounding sources",
    "NO HEDGE: State answers confidently. Note uncertainty only if critical." ]

def groundingRule (context_text : String) : String :=
  if context_text ≠ "" then "GROUNDING: KNOWLEDGE GRAPH > DEEP > SHALLOW."
  else "GROUNDING: No sources available. Use knowledge and note \x27based on general knowledge\x27."

def historyRule : String :=
  "HISTORY: Refer to prior exchange for context. Ideally, do not repeat any claims."

/-- `instructions = [task] + CORE_RULES + [grounding]`, with the history
rule appended when `prev_answer` is truthy. -/
def instructionsList (q prev_answer context_text : String) (target_words : Nat) :
    List String :=
  [taskFor q prev_answer] ++ coreRules target_words ++ [groundingRule context_text] ++
    (if prev_answer ≠ "" then [historyRule] else [])

/-! ## Lemmas: rational bridge and token verification -/

theorem ratSub_eq_sub (a b : ℚ) : ratSub a b = a - b := by
  have ha : ((a.den : ℚ)) ≠ 0 := by exact_mod_cast a.den_nz
  have hb : ((b.den : ℚ)) ≠ 0 := by exact_mod_cast b.den_nz
  rw [ratSub, Rat.mkRat_eq_div]
  push_cast
  conv_rhs => rw [← Rat.num_div_den a, ← Rat.num_div_den b, div_sub_div _ _ ha hb]
  ring_nf

theorem rsplitDot_of_not_mem {l : List Char} (h : '.' ∉ l) : rsplitDot l = none := by
  induction l with
  | nil => rfl
  | cons c rest ih =>
    have hc : c ≠ '.' := fun hc => h (hc ▸ List.mem_cons_self c rest)
    have hr : '.' ∉ rest := fun hm => h (List.mem_cons_of_mem c hm)
    simp [rsplitDot, ih hr, hc]

theorem rsplitDot_append {ts sig : List Char} (h : '.' ∉ sig) :
    rsplitDot (ts ++ '.' :: sig) = some (ts, sig) := by
  induction ts with
  | nil => simp [rsplitDot, rsplitDot_of_not_mem h]
  | cons c rest ih => simp [rsplitDot, ih]

theorem verifyToken_append (hash : List Char → List Char) (secret : List Char)
    (now : ℚ) (ts sig : List Char) (v : PyFloat)
    (hdot : '.' ∉ sig) (hp : parseFloat ts = some v) :
    verifyToken hash secret now (ts ++ '.' :: sig) =
      (decide (sig = hash (ts ++ secret)) && !pyGT (pySub now v) (.fin TOKEN_EXPIRY_SEC)) := by
  rw [verifyToken, rsplitDot_append hdot]
  simp only [hp]
  by_cases h1 : sig = hash (ts ++ secret) <;>
    by_cases h2 : pyGT (pySub now v) (.fin TOKEN_EXPIRY_SEC) = true <;>
      simp [h1, h2]

theorem pyGT_fin_iff (now q c : ℚ) :
    pyGT (pySub now (.fin q)) (.fin c) = decide (c < now - q) := by
  simp [pySub, pyGT, ratSub_eq_sub]

/-- C3: Token verification accepts a token `<issuedAt>.<signature>` (split
on the last dot) exactly when the signature equals the keyed hash of the
issuedAt string under the server secret and `now - issuedAt ≤
TOKEN_EXPIRY_SEC`; a token stamped `now - TOKEN_EXPIRY_SEC - 1` is
rejected, a tampered signature is rejected, and every parse failure
(no dot in the token, unparseable timestamp) is rejected. -/
theorem tokenVerify_spec :
    (∀ (hash : List Char → List Char) (secret : List Char) (now : ℚ)
       (issuedAt sig : List Char) (q : ℚ),
       parseFloat issuedAt = some (.fin q) → '.' ∉ sig →
       (verifyToken hash secret now (issuedAt ++ '.' :: sig) = true ↔
         (sig = hash (issuedAt ++ secret) ∧ now - q ≤ TOKEN_EXPIRY_SEC))) ∧
    (∀ (hash : List Char → List Char) (secret : List Char) (now : ℚ)
       (issuedAt sig : List Char),
       parseFloat issuedAt = some (.fin (now - TOKEN_EXPIRY_SEC - 1)) → '.' ∉ sig →
       verifyToken hash secret now (issuedAt ++ '.' :: sig) = false) ∧
    (∀ (hash : List Char → List Char) (secret : List Char) (now : ℚ)
       (issuedAt sig : List Char) (q : ℚ),
       parseFloat issuedAt = some (.fin q) → '.' ∉ sig →
       sig ≠ hash (issuedAt ++ secret) →
       verifyToken hash secret now (issuedAt ++ '.' :: sig) = false) ∧
    (∀ (hash : List Char → List Char) (secret : List Char) (now : ℚ)
       (token : List Char), rsplitDot token = none →
       verifyToken hash secret now token = false) ∧
    (∀ (hash : List Char → List Char) (secret : List Char) (now : ℚ)
       (token ts sig : List Char), rsplitDot token = some (ts, sig) →
       parseFloat ts = none →
       verifyToken hash secret now token = false) := by
  have key : ∀ (hash : List Char → List Char) (secret : List Char) (now : ℚ)
      (issuedAt sig : List Char) (q : ℚ),
      parseFloat issuedAt = some (.fin q) → '.' ∉ sig →
      (verifyToken hash secret now (issuedAt ++ '.' :: sig) = true ↔
        (sig = hash (issuedAt ++ secret) ∧ now - q ≤ TOKEN_EXPIRY_SEC)) := by
    intro hash secret now issuedAt sig q hp hdot
    rw [verifyToken_append hash secret now issuedAt sig _ hdot hp, pyGT_fin_iff]
    simp [not_lt]
  refine ⟨key, ?_, ?_, ?_, ?_⟩
  · intro hash secret now issuedAt sig hp hdot
    have h := key hash secret now issuedAt sig _ hp hdot
    rcases hv : verifyToken hash secret now (issuedAt ++ '.' :: sig) with _ | _
    · rfl
    · exfalso
      have h2 := (h.mp hv).2
      have : (0 : ℚ) < 1 := by norm_num
      linarith
  · intro hash secret now issuedAt sig q hp hdot hsig
    have h := key hash secret now issuedAt sig q hp hdot
    rcases hv : verifyToken hash secret now (issuedAt ++ '.' :: sig) with _ | _
    · rfl
    · exact absurd (h.mp hv).1 hsig
  · intro hash secret now token hr
    rw [verifyToken, hr]
  · intro hash secret now token ts sig hr hp
    rw [verifyToken, hr]
    simp only [hp]

/-- Witness for C3 at concrete inputs: with hash constantly `"cafe"` and
secret `"sec"`, at `now = 10000` the token `"9000.cafe"` verifies, the
token `"6399.cafe"` (stamped `now - 3601`) is rejected, `"9000.dead"`
(tampered signature) is rejected, and `"garbage"` (no dot) is rejected. -/
theorem tokenVerify_spec_witness :
    verifyToken (fun _ => "cafe".data) "sec".data 10000 "9000.cafe".data = true ∧
    verifyToken (fun _ => "cafe".data) "sec".data 10000 "6399.cafe".data = false ∧
    verifyToken (fun _ => "cafe".data) "sec".data 10000 "9000.dead".data = false ∧
    verifyToken (fun _ => "cafe".data) "sec".data 10000 "garbage".data = false := by
  have e1 : "9000.cafe".data = "9000".data ++ '.' :: "cafe".data := by decide
  have e2 : "6399.cafe".data = "6399".data ++ '.' :: "cafe".data := by decide
  have e3 : "9000.dead".data = "9000".data ++ '.' :: "dead".data := by decide
  refine ⟨?_, ?_, ?_, ?_⟩
  · rw [e1]
    exact (tokenVerify_spec.1 (fun _ => "cafe".data) "sec".data 10000 "9000".data
      "cafe".data 9000 (by decide) (by decide)).mpr ⟨rfl, by norm_num [TOKEN_EXPIRY_SEC]⟩
  · rw [e2]
    exact tokenVerify_spec.2.1 (fun _ => "cafe".data) "sec".data 10000 "6399".data
      "cafe".data (by rw [show (10000 : ℚ) - TOKEN_EXPIRY_SEC - 1 = 6399 by
        norm_num [TOKEN_EXPIRY_SEC]]; decide) (by decide)
  · rw [e3]
    exact tokenVerify_spec.2.2.1 (fun _ => "cafe".data) "sec".data 10000 "9000".data
      "dead".data 9000 (by decide) (by decide) (by decide)
  · exact tokenVerify_spec.2.2.2.1 (fun _ => "cafe".data) "sec".data 10000
      "garbage".data (by decide)

/-- C10: Token verification accepts any token whose timestamp part parses
as a Python float — future-dated, fractional, or the non-finite spellings
`"inf"` and `"nan"` — whenever the signature matches and
`now - parsed > TOKEN_EXPIRY_SEC` does not hold under IEEE comparison; in
particular every future-dated token with a matching signature verifies,
as do `inf`- and `nan`-stamped ones. -/
theorem tokenVerify_liberal :
    (∀ (hash : List Char → List Char) (secret : List Char) (now : ℚ)
       (ts sig : List Char) (v : PyFloat),
       parseFloat ts = some v → '.' ∉ sig →
       sig = hash (ts ++ secret) →
       pyGT (pySub now v) (.fin TOKEN_EXPIRY_SEC) = false →
       verifyToken hash secret now (ts ++ '.' :: sig) = true) ∧
    (∀ (hash : List Char → List Char) (secret : List Char) (now : ℚ)
       (ts sig : List Char) (q : ℚ),
       parseFloat ts = some (.fin q) → '.' ∉ sig →
       sig = hash (ts ++ secret) → now < q →
       verifyToken hash secret now (ts ++ '.' :: sig) = true) ∧
    (∀ (hash : List Char → List Char) (secret : List Char) (now : ℚ)
       (sig : List Char), '.' ∉ sig →
       sig = hash ("inf".data ++ secret) →
       verifyToken hash secret now ("inf".data ++ '.' :: sig) = true) ∧
    (∀ (hash : List Char → List Char) (secret : List Char) (now : ℚ)
       (sig : List Char), '.' ∉ sig →
       sig = hash ("nan".data ++ secret) →
       verifyToken hash secret now ("nan".data ++ '.' :: sig) = true) := by
  have key : ∀ (hash : List Char → List Char) (secret : List Char) (now : ℚ)
      (ts sig : List Char) (v : PyFloat),
      parseFloat ts = some v → '.' ∉ sig →
      sig = hash (ts ++ secret) →
      pyGT (pySub now v) (.fin TOKEN_EXPIRY_SEC) = false →
      verifyToken hash secret now (ts ++ '.' :: sig) = true := by
    intro hash secret now ts sig v hp hdot hsig hgt
    rw [verifyToken_append hash secret now ts sig v hdot hp, hgt]
    simp [hsig]
  refine ⟨key, ?_, ?_, ?_⟩
  · intro hash secret now ts sig q hp hdot hsig hfut
    refine key hash secret now ts sig (.fin q) hp hdot hsig ?_
    rw [pyGT_fin_iff]
    simp only [decide_eq_false_iff_not, not_lt]
    have : (0 : ℚ) < TOKEN_EXPIRY_SEC := by norm_num [TOKEN_EXPIRY_SEC]
    linarith
  · intro hash secret now sig hdot hsig
    exact key hash secret now "inf".data sig .inf (by decide) hdot hsig rfl
  · intro hash secret now sig hdot hsig
    exact key hash secret now "nan".data sig .nan (by decide) hdot hsig rfl

/-- Witness for C10: with hash constantly `"cafe"` and secret `"sec"`, at
`now = 10000` the far-future token `"99999999.cafe"`, the token
`"inf.cafe"` and the token `"nan.cafe"` all verify. -/
theorem tokenVerify_liberal_witness :
    verifyToken (fun _ => "cafe".data) "sec".data 10000 "99999999.cafe".data = true ∧
    verifyToken (fun _ => "cafe".data) "sec".data 10000 "inf.cafe".data = true ∧
    verifyToken (fun _ => "cafe".data) "sec".data 10000 "nan.cafe".data = true := by
  have e1 : "99999999.cafe".data = "99999999".data ++ '.' :: "cafe".data := by decide
  have e2 : "inf.cafe".data = "inf".data ++ '.' :: "cafe".data := by decide
  have e3 : "nan.cafe".data = "nan".data ++ '.' :: "cafe".data := by decide
  refine ⟨?_, ?_, ?_⟩
  · rw [e1]
    exact tokenVerify_liberal.2.1 (fun _ => "cafe".data) "sec".data 10000
      "99999999".data "cafe".data 99999999 (by decide) (by decide) rfl (by norm_num)
  · rw [e2]
    exact tokenVerify_liberal.2.2.1 (fun _ => "cafe".data) "sec".data 10000
      "cafe".data (by decide) rfl
  · rw [e3]
    exact tokenVerify_liberal.2.2.2 (fun _ => "cafe".data) "sec".data 10000
      "cafe".data (by decide) rfl

/-- C6 counterexample: a warmup probe is answered with HTTP status 204,
not 200 as claimed — shown at a concrete configured gateway. -/
theorem warmup_status_counterexample :
    (handleAIStream ⟨"key".data, "sec".data⟩ (fun _ => []) 0
      ⟨true, [], "", "all", "", ""⟩).response.status = 204 ∧ (204 : Nat) ≠ 200 := by
  constructor
  · rfl
  · decide

/-- C6 (amended): a request carrying the warmup flag receives HTTP status
204 with an empty body, and neither token verification nor any upstream
call is performed for it. -/
theorem warmup_spec (cfg : GatewayConfig) (hash : List Char → List Char)
    (now : ℚ) (req : AIStreamRequest) (h : req.warmup = true) :
    (handleAIStream cfg hash now req).response.status = 204 ∧
    (handleAIStream cfg hash now req).response.body = "" ∧
    (handleAIStream cfg hash now req).verifyAttempted = false ∧
    (handleAIStream cfg hash now req).upstreamCalled = false := by
  simp [handleAIStream, h, HandlerResponse.status, HandlerResponse.body]

/-- Witness for C6 (amended) at a concrete warmup request. -/
theorem warmup_spec_witness :
    (handleAIStream ⟨"key".data, "sec".data⟩ (fun _ => []) 0
      ⟨true, [], "", "all", "", ""⟩).response.status = 204 ∧
    (handleAIStream ⟨"key".data, "sec".data⟩ (fun _ => []) 0
      ⟨true, [], "", "all", "", ""⟩).response.body = "" ∧
    (handleAIStream ⟨"key".data, "sec".data⟩ (fun _ => []) 0
      ⟨true, [], "", "all", "", ""⟩).verifyAttempted = false ∧
    (handleAIStream ⟨"key".data, "sec".data⟩ (fun _ => []) 0
      ⟨true, [], "", "all", "", ""⟩).upstreamCalled = false :=
  warmup_spec ⟨"key".data, "sec".data⟩ (fun _ => []) 0
    ⟨true, [], "", "all", "", ""⟩ rfl

/-- C7 counterexample: with no API key configured, a non-warmup request
whose token fails verification (here the dotless token `""`) is answered
403, not the claimed unconfigured 400 — so the 400 does not come
"regardless of the token presented". -/
theorem unconfigured_status_counterexample :
    (handleAIStream ⟨[], []⟩ (fun _ => []) 0
      ⟨false, [], "q", "all", "", ""⟩).response.status = 403 ∧ (403 : Nat) ≠ 400 := by
  constructor
  · rfl
  · decide

/-- C7 (amended): when no API key is configured, a non-warmup request is
answered with the unconfigured 400 exactly when its token passes
verification against the configured secret; a request whose token fails
verification is answered with the generic 403 instead. No upstream call
is made in either case. -/
theorem unconfigured_spec (cfg : GatewayConfig) (hash : List Char → List Char)
    (now : ℚ) (req : AIStreamRequest)
    (hkey : cfg.api_key = []) (hw : req.warmup = false) :
    (verifyToken hash cfg.secret now req.tk = true →
      (handleAIStream cfg hash now req).response = .missingKey ∧
      (handleAIStream cfg hash now req).response.status = 400 ∧
      (handleAIStream cfg hash now req).upstreamCalled = false) ∧
    (verifyToken hash cfg.secret now req.tk = false →
      (handleAIStream cfg hash now req).response = .forbidden ∧
      (handleAIStream cfg hash now req).response.status = 403 ∧
      (handleAIStream cfg hash now req).upstreamCalled = false) := by
  constructor
  · intro hv
    simp [handleAIStream, hkey, hw, hv, HandlerResponse.status]
  · intro hv
    simp [handleAIStream, hkey, hw, hv, HandlerResponse.status]

/-- Witness for C7 (amended): unconfigured gateway, token passing
verification (constant hash, token `"0.x"` with matching signature) →
400; token `""` failing verification → 403. -/
theorem unconfigured_spec_witness :
    (handleAIStream ⟨[], []⟩ (fun _ => "x".data) 0
      ⟨false, "0.x".data, "q", "all", "", ""⟩).response.status = 400 ∧
    (handleAIStream ⟨[], []⟩ (fun _ => "x".data) 0
      ⟨false, [], "q", "all", "", ""⟩).response.status = 403 := by
  constructor
  · exact (unconfigured_spec ⟨[], []⟩ (fun _ => "x".data) 0
      ⟨false, "0.x".data, "q", "all", "", ""⟩ rfl rfl).1 (by decide) |>.2.1
  · exact (unconfigured_spec ⟨[], []⟩ (fun _ => "x".data) 0
      ⟨false, [], "q", "all", "", ""⟩ rfl rfl).2 (by decide) |>.2.1

theorem brevity_ne_followUp (x : String) :
    "BREVITY: " ++ x ++ " words max. Complete, not verbose." ≠ followUpTask := by
  intro h
  have h2 := congrArg (fun s => s.data.head?) h
  simp [followUpTask, String.data_append] at h2

/-- C8: when the query is the reserved literal `"Continue"`, the task slot
of the assembled instruction list is the continuation directive — even
when the prior answer is non-empty — and the follow-up directive occurs
nowhere in the instruction list. -/
theorem continue_selects_continuation (prev_answer context_text : String)
    (target_words : Nat) (hprev : prev_answer ≠ "") :
    taskFor "Continue" prev_answer = continuationTask ∧
    continuationTask ∈ instructionsList "Continue" prev_answer context_text target_words ∧
    followUpTask ∉ instructionsList "Continue" prev_answer context_text target_words := by
  refine ⟨rfl, ?_, ?_⟩
  · simp [instructionsList, taskFor]
  · intro hmem
    have hlist : instructionsList "Continue" prev_answer context_text target_words =
        [continuationTask] ++ coreRules target_words ++ [groundingRule context_text] ++
          [historyRule] := by
      rw [instructionsList, if_pos hprev, taskFor, if_pos rfl]
    rw [hlist] at hmem
    simp only [coreRules, List.append_assoc, List.mem_append, List.mem_cons,
      List.mem_singleton, List.not_mem_nil, or_false] at hmem
    rcases hmem with h | (h | h | h | h) | h | h
    · exact absurd h.symm (by decide)
    · exact absurd h.symm (by decide)
    · exact absurd h.symm (brevity_ne_followUp (toString target_words))
    · exact absurd h.symm (by decide)
    · exact absurd h.symm (by decide)
    · rw [groundingRule] at h
      by_cases hc : context_text ≠ "" <;> simp [hc] at h <;> exact absurd h.symm (by decide)
    · exact absurd h (by decide)

/-- Witness for C8 at a concrete non-empty prior answer. -/
theorem continue_selects_continuation_witness :
    taskFor "Continue" "prior" = continuationTask ∧
    continuationTask ∈ instructionsList "Continue" "prior" "ctx" 100 ∧
    followUpTask ∉ instructionsList "Continue" "prior" "ctx" 100 :=
  continue_selects_continuation "prior" "ctx" 100 (by decide)

/-! ## Python `json` model

`json.JSONDecoder().raw_decode` over code-point sequences (`List Nat`;
code points rather than `Char` because `\uXXXX` escapes may denote lone
surrogates).  Numbers are kept as their matched lexeme — the plugin never
uses a numeric value, only the extent of the match and (for truthiness)
whether the mantissa is zero.  `NaN`, `Infinity` and `-Infinity` are
accepted by the default `parse_constant`, as in CPython. -/

/-- JSON whitespace (`' \t\n\r'`). -/
def isJsonWs (c : Nat) : Bool := c = 32 || c = 9 || c = 10 || c = 13

def skipWs (cs : List Nat) : List Nat := cs.dropWhile isJsonWs

def isDigitC (c : Nat) : Bool := 48 ≤ c && c ≤ 57

/-- Integer part of `NUMBER_RE`: `-?(?:0|[1-9]\d*)`, without the sign. -/
def parseIntPart : List Nat → Option (List Nat × List Nat)
  | [] => none
  | c :: rest =>
    if c = 48 then some ([48], rest)
    else if 49 ≤ c ∧ c ≤ 57 then
      some (c :: rest.takeWhile isDigitC, rest.dropWhile isDigitC)
    else none

/-- Optional fraction `(\.\d+)?`: backtracks to the empty match when no
digit follows the dot. -/
def parseFracPart (cs : List Nat) : List Nat × List Nat :=
  match cs with
  | [] => ([], [])
  | c :: rest =>
    if c = 46 then
      let d := rest.takeWhile isDigitC
      if d = [] then ([], c :: rest) else (46 :: d, rest.dropWhile isDigitC)
    else ([], c :: rest)

/-- Optional exponent `([eE][-+]?\d+)?`: backtracks to the empty match
when the digits are missing. -/
def parseExpPart (cs : List Nat) : List Nat × List Nat :=
  match cs with
  | [] => ([], [])
  | e :: rest =>
    if e = 101 ∨ e = 69 then
      match rest with
      | [] => ([], e :: rest)
      | s :: rest2 =>
        if s = 43 ∨ s = 45 then
          let d := rest2.takeWhile isDigitC
          if d = [] then ([], e :: rest) else (e :: s :: d, rest2.dropWhile isDigitC)
        else
          let d := rest.takeWhile isDigitC
          if d = [] then ([], e :: rest) else (e :: d, rest.dropWhile isDigitC)
    else ([], e :: rest)

/-- `parseIntPart` then the two optional groups. -/
def parseNumCore (ds : List Nat) : Option (List Nat × List Nat) :=
  match parseIntPart ds with
  | none => none
  | some (ip, r1) =>
    let fr := parseFracPart r1
    let ex := parseExpPart fr.2
    some (ip ++ fr.1 ++ ex.1, ex.2)

/-- The scanner's `NUMBER_RE.match`: returns the matched lexeme and the
remaining input. -/
def parseNumber (cs : List Nat) : Option (List Nat × List Nat) :=
  match cs with
  | [] => none
  | c :: rest =>
    if c = 45 then (parseNumCore rest).map fun p => (45 :: p.1, p.2)
    else parseNumCore (c :: rest)

def hexVal (c : Nat) : Option Nat :=
  if 48 ≤ c ∧ c ≤ 57 then some (c - 48)
  else if 97 ≤ c ∧ c ≤ 102 then some (c - 87)
  else if 65 ≤ c ∧ c ≤ 70 then some (c - 55)
  else none

def hex4 (a b c d : Nat) : Option Nat :=
  match hexVal a, hexVal b, hexVal c, hexVal d with
  | some x, some y, some z, some w => some (((x * 16 + y) * 16 + z) * 16 + w)
  | _, _, _, _ => none

/-- `\b \f \n \r \t \" \\ \/` single-character escapes. -/
def escChar (c : Nat) : Option Nat :=
  if c = 34 then some 34
  else if c = 92 then some 92
  else if c = 47 then some 47
  else if c = 98 then some 8
  else if c = 102 then some 12
  else if c = 110 then some 10
  else if c = 114 then some 13
  else if c = 116 then some 9
  else none

def combineSurrogates (u u2 : Nat) : Nat :=
  0x10000 + (u - 0xd800) * 1024 + (u2 - 0xdc00)

/-- Lookahead used for surrogate combining: do the next six characters
spell a `\uXXXX` escape whose value is a low surrogate? -/
def nextIsLowSurrEscape (cs : List Nat) : Bool :=
  match cs with
  | c1 :: c2 :: a :: b :: c :: d :: _ =>
    c1 = 92 && c2 = 117 &&
      (match hex4 a b c d with
       | some u2 => decide (0xdc00 ≤ u2 ∧ u2 ≤ 0xdfff)
       | none => false)
  | _ => false

/-- `py_scanstring` after the opening quote, `strict=True`: literal
characters up to the closing quote, raw control characters are errors,
escapes as in CPython including `\uXXXX` with surrogate-pair combining
(a high surrogate followed by an escaped `\uDC00`–`\uDFFF` merges;
otherwise the lone surrogate is kept).  The combining is formulated by
recursing past the high surrogate and merging with the first code of the
tail — when `nextIsLowSurrEscape` holds, the tail begins with exactly
that low surrogate — which keeps the recursion structural. -/
def parseStringBody : List Nat → Option (List Nat × List Nat)
  | [] => none
  | c0 :: rest =>
    if c0 = 34 then some ([], rest)
    else if c0 = 92 then
      match rest with
      | [] => none
      | e :: t =>
        if e = 117 then
          match t with
          | a :: b :: c :: d :: t2 =>
            match hex4 a b c d with
            | none => none
            | some u =>
              (parseStringBody t2).map fun p =>
                if 0xd800 ≤ u ∧ u ≤ 0xdbff ∧ nextIsLowSurrEscape t2 then
                  match p.1 with
                  | u2 :: tl => (combineSurrogates u u2 :: tl, p.2)
                  | [] => (u :: p.1, p.2)
                else (u :: p.1, p.2)
          | _ => none
        else
          match escChar e with
          | some c => (parseStringBody t).map fun p => (c :: p.1, p.2)
          | none => none
    else if c0 < 32 then none
    else (parseStringBody rest).map fun p => (c0 :: p.1, p.2)

/-- A decoded JSON value.  Object fields keep insertion order (lookup is
last-wins, as for a Python dict built by repeated insertion); numbers
keep their lexeme. -/
inductive JVal where
  | null
  | bool (b : Bool)
  | num (lex : List Nat)
  | nanV
  | infV
  | neginfV
  | str (codes : List Nat)
  | arr (items : List JVal)
  | obj (fields : List (List Nat × JVal))

def nullLit : List Nat := [110, 117, 108, 108]
def trueLit : List Nat := [116, 114, 117, 101]
def falseLit : List Nat := [102, 97, 108, 115, 101]
def nanLit : List Nat := [78, 97, 78]
def infLit : List Nat := [73, 110, 102, 105, 110, 105, 116, 121]
def neginfLit : List Nat := [45, 73, 110, 102, 105, 110, 105, 116, 121]

mutual

/-- `scan_once`: dispatch on the first character exactly as
`py_make_scanner` does — string, object, array, the three keyword
literals, then `NUMBER_RE`, then `NaN` / `Infinity` / `-Infinity`. -/
def parseVal : Nat → List Nat → Option (JVal × List Nat)
  | 0, _ => none
  | _ + 1, [] => none
  | f + 1, c :: rest =>
    if c = 34 then
      (parseStringBody rest).map fun p => (JVal.str p.1, p.2)
    else if c = 123 then
      (parseFields f true (skipWs rest)).map fun p => (JVal.obj p.1, p.2)
    else if c = 91 then
      (parseElems f true rest).map fun p => (JVal.arr p.1, p.2)
    else if (c :: rest).take 4 = nullLit then some (JVal.null, (c :: rest).drop 4)
    else if (c :: rest).take 4 = trueLit then some (JVal.bool true, (c :: rest).drop 4)
    else if (c :: rest).take 5 = falseLit then some (JVal.bool false, (c :: rest).drop 5)
    else
      match parseNumber (c :: rest) with
      | some p => some (JVal.num p.1, p.2)
      | none =>
        if (c :: rest).take 3 = nanLit then some (JVal.nanV, (c :: rest).drop 3)
        else if (c :: rest).take 8 = infLit then some (JVal.infV, (c :: rest).drop 8)
        else if (c :: rest).take 9 = neginfLit then some (JVal.neginfV, (c :: rest).drop 9)
        else none

/-- `JSONObject` after `{` with leading whitespace already skipped:
`}` closes the empty object (first position only); otherwise a quoted
key, `:`, a value, then `,` (followed by whitespace and the next key) or
`}`. -/
def parseFields : Nat → Bool → List Nat → Option (List (List Nat × JVal) × List Nat)
  | 0, _, _ => none
  | _ + 1, _, [] => none
  | f + 1, first, c :: rest =>
    if first ∧ c = 125 then some ([], rest)
    else if c = 34 then
      match parseStringBody rest with
      | none => none
      | some (key, r1) =>
        match skipWs r1 with
        | [] => none
        | c2 :: r2 =>
          if c2 = 58 then
            match parseVal f (skipWs r2) with
            | none => none
            | some (v, r3) =>
              match skipWs r3 with
              | [] => none
              | c3 :: r4 =>
                if c3 = 125 then some ([(key, v)], r4)
                else if c3 = 44 then
                  (parseFields f false (skipWs r4)).map fun p => ((key, v) :: p.1, p.2)
                else none
          else none
    else none

/-- `JSONArray` after `[`: whitespace, `]` closes the empty array (first
position only); otherwise a value, then `,` (followed by whitespace) or
`]`. -/
def parseElems : Nat → Bool → List Nat → Option (List JVal × List Nat)
  | 0, _, _ => none
  | f + 1, first, cs =>
    match skipWs cs with
    | [] => none
    | c :: rest =>
      if first ∧ c = 93 then some ([], rest)
      else
        match parseVal f (c :: rest) with
        | none => none
        | some (v, r1) =>
          match skipWs r1 with
          | [] => none
          | c2 :: r2 =>
            if c2 = 93 then some ([v], r2)
            else if c2 = 44 then (parseElems f false r2).map fun p => (v :: p.1, p.2)
            else none

end

/-- `decoder.raw_decode(buffer)`: parse one value at the start of the
input (no leading-whitespace skip) and return it with the unconsumed
remainder.  The fuel `2·|input| + 2` dominates the recursion depth of
any parse of the input (each nesting step consumes at least one
character, spending at most two fuel units). -/
def rawDecode (cs : List Nat) : Option (JVal × List Nat) :=
  parseVal (2 * cs.length + 2) cs

/-! ## Python attribute/index semantics used by the two extractors

`none` throughout these helpers models an uncaught exception
(`AttributeError`, `TypeError`, `KeyError`, `IndexError`): it escapes the
per-line/per-document handling, is caught only by the generator's outer
`except Exception`, and therefore terminates the stream. -/

def strCodes (s : String) : List Nat := s.data.map Char.toNat

/-- Mantissa-zero test on a number lexeme (float truthiness: `0`, `-0.0`,
`0e5`… are falsy). -/
def numLexZero (lex : List Nat) : Bool :=
  (lex.takeWhile fun c => !(c = 101 || c = 69)).all fun c => !(isDigitC c) || c = 48

/-- Python truthiness of a decoded JSON value. -/
def pyTruthy : JVal → Bool
  | .null => false
  | .bool b => b
  | .num lex => !(numLexZero lex)
  | .nanV => true
  | .infV => true
  | .neginfV => true
  | .str s => !s.isEmpty
  | .arr l => !l.isEmpty
  | .obj f => !f.isEmpty

/-- Dict lookup, last occurrence of a duplicated key wins (as for a
Python dict built by insertion). -/
def objLookup (fs : List (List Nat × JVal)) (key : List Nat) : Option JVal :=
  match fs with
  | [] => none
  | kv :: rest =>
    match objLookup rest key with
    | some r => some r
    | none => if kv.1 = key then some kv.2 else none

/-- `x.get(key, dflt)`: `none` (death) unless `x` is a dict. -/
def pyGetD (v : JVal) (key : List Nat) (dflt : JVal) : Option JVal :=
  match v with
  | .obj fs => some ((objLookup fs key).getD dflt)
  | _ => none

/-- `x[0]`: the head of a non-empty list; anything else is death —
an empty list raises `IndexError`, and a string/dict/number either
raises here or yields a value whose `.get` raises immediately after. -/
def pyIndex0 (v : JVal) : Option JVal :=
  match v with
  | .arr (a :: _) => some a
  | _ => none

/-! ## `stream_gemini`: per-item extraction and the drain loop -/

def candidatesKey : List Nat := strCodes "candidates"
def contentKey : List Nat := strCodes "content"
def partsKey : List Nat := strCodes "parts"
def textKey : List Nat := strCodes "text"

/-- One loop body of `for item in items` in `stream_gemini`:
`candidates = item.get('candidates', [])`, and when truthy
`candidates[0].get('content', {}).get('parts', [])`, and when truthy
`parts[0].get('text', '')`, yielded when truthy.
`none` = death, `some none` = no delta, `some (some d)` = yield `d`. -/
def extractItem (item : JVal) : Option (Option JVal) :=
  match pyGetD item candidatesKey (.arr []) with
  | none => none
  | some cands =>
    if pyTruthy cands then
      match pyIndex0 cands with
      | none => none
      | some c0 =>
        match pyGetD c0 contentKey (.obj []) with
        | none => none
        | some content =>
          match pyGetD content partsKey (.arr []) with
          | none => none
          | some parts =>
            if pyTruthy parts then
              match pyIndex0 parts with
              | none => none
              | some p0 =>
                match pyGetD p0 textKey (.str []) with
                | none => none
                | some text => some (if pyTruthy text then some text else none)
            else some none
    else some none

/-- `for item in items`, emitting until the first death. -/
def extractItems : List JVal → List JVal × Bool
  | [] => ([], false)
  | i :: rest =>
    match extractItem i with
    | none => ([], true)
    | some none => extractItems rest
    | some (some d) =>
      let r := extractItems rest
      (d :: r.1, r.2)

/-- `items = obj if isinstance(obj, list) else [obj]`, then the item
loop: the deltas emitted by one decoded document and whether an uncaught
exception ends the stream. -/
def extractDoc (obj : JVal) : List JVal × Bool :=
  match obj with
  | .arr items => extractItems items
  | v =>
    match extractItem v with
    | none => ([], true)
    | some none => ([], false)
    | some (some d) => ([d], false)

/-- The inner `while buffer:` drain loop of `stream_gemini`:
`buffer = buffer.lstrip()`, break when empty, `raw_decode`, emit the
document's deltas, continue on the remainder; `json.JSONDecodeError`
breaks (keeping the buffer), any other exception ends the generator
(third component `false`).  Fuel-indexed (each iteration consumes at
least one character, so any fuel above the buffer length is enough —
`drainGo_irrel`). -/
def drainGo : Nat → List Nat → List JVal × List Nat × Bool
  | 0, buf => ([], buf, true)
  | f + 1, buf =>
    let b1 := skipWs buf
    if b1 = [] then ([], [], true)
    else
      match rawDecode b1 with
      | none => ([], b1, true)
      | some (v, rest) =>
        match extractDoc v with
        | (ds, true) => (ds, rest, false)
        | (ds, false) =>
          let r := drainGo f rest
          (ds ++ r.1, r.2.1, r.2.2)

def drain (buf : List Nat) : List JVal × List Nat × Bool :=
  drainGo (buf.length + 1) buf

/-! ## Incremental UTF-8 decoder (`codecs.getincrementaldecoder("utf-8")`,
`errors='replace'`), as a byte-at-a-time state machine.  The state is the
pending prefix of an incomplete multi-byte sequence; an invalid byte
emits one U+FFFD per maximal subpart, per the Unicode recommendation
CPython implements. -/

/-- Total length of the sequence introduced by a lead byte (`none` for
bytes that cannot begin a sequence). -/
def leadLen (b : Nat) : Option Nat :=
  if b < 0x80 then some 1
  else if 0xc2 ≤ b ∧ b ≤ 0xdf then some 2
  else if 0xe0 ≤ b ∧ b ≤ 0xef then some 3
  else if 0xf0 ≤ b ∧ b ≤ 0xf4 then some 4
  else none

/-- Valid range of the continuation byte at (1-based) position `idx`
after lead `lead` (first continuations are restricted for `E0`, `ED`,
`F0`, `F4` to exclude overlongs, surrogates and values above 10FFFF). -/
def contOk (lead idx b : Nat) : Bool :=
  if idx = 1 then
    if lead = 0xe0 then 0xa0 ≤ b && b ≤ 0xbf
    else if lead = 0xed then 0x80 ≤ b && b ≤ 0x9f
    else if lead = 0xf0 then 0x90 ≤ b && b ≤ 0xbf
    else if lead = 0xf4 then 0x80 ≤ b && b ≤ 0x8f
    else 0x80 ≤ b && b ≤ 0xbf
  else 0x80 ≤ b && b ≤ 0xbf

/-- Code point of a complete sequence. -/
def decodeSeq : List Nat → Nat
  | [l, c1] => (l - 0xc0) * 64 + (c1 - 0x80)
  | [l, c1, c2] => (l - 0xe0) * 4096 + (c1 - 0x80) * 64 + (c2 - 0x80)
  | [l, c1, c2, c3] =>
    (l - 0xf0) * 262144 + (c1 - 0x80) * 4096 + (c2 - 0x80) * 64 + (c3 - 0x80)
  | _ => 0xfffd

/-- One byte arriving on an empty pending state. -/
def utf8StepEmpty (b : Nat) : List Nat × List Nat :=
  if b < 0x80 then ([], [b])
  else
    match leadLen b with
    | some _ => ([b], [])
    | none => ([], [0xfffd])

/-- One byte arriving on an arbitrary pending state: `(pending', emitted)`. -/
def utf8Step (pending : List Nat) (b : Nat) : List Nat × List Nat :=
  match pending with
  | [] => utf8StepEmpty b
  | lead :: conts =>
    if contOk lead (conts.length + 1) b then
      let seq := pending ++ [b]
      if seq.length = (leadLen lead).getD 0 then ([], [decodeSeq seq])
      else (seq, [])
    else
      let r := utf8StepEmpty b
      (r.1, 0xfffd :: r.2)

def utf8Decode : List Nat → List Nat → List Nat × List Nat
  | st, [] => (st, [])
  | st, b :: rest =>
    let r := utf8Step st b
    let r2 := utf8Decode r.1 rest
    (r2.1, r.2 ++ r2.2)

/-! ## The `stream_gemini` feed machine -/

structure GemState where
  pending : List Nat   -- incremental UTF-8 decoder state
  buffer : List Nat    -- decoded, not yet consumed code points
  alive : Bool

def gemInit : GemState := ⟨[], [], true⟩

/-- One `for chunk in chunk_gen` iteration of `stream_gemini`: skip empty
chunks, decode incrementally, append to the buffer, run the drain loop.
A dead generator never resumes. -/
def gemFeed (st : GemState) (chunk : List Nat) : GemState × List JVal :=
  if st.alive = false then (st, [])
  else if chunk = [] then (st, [])
  else
    let d := utf8Decode st.pending chunk
    let r := drain (st.buffer ++ d.2)
    (⟨d.1, r.2.1, r.2.2⟩, r.1)

def gemFeedList : GemState → List (List Nat) → GemState × List JVal
  | st, [] => (st, [])
  | st, c :: rest =>
    let r := gemFeed st c
    let r2 := gemFeedList r.1 rest
    (r2.1, r.2 ++ r2.2)

/-! ## The `stream_openai_compatible` feed machine -/

/-- Python `str.strip()` whitespace (the ASCII part; the SSE payloads
stripped here are produced after an ASCII `data: ` prefix). -/
def isStripWs (c : Nat) : Bool :=
  c = 32 || c = 9 || c = 10 || c = 13 || c = 11 || c = 12

def stripCodes (cs : List Nat) : List Nat :=
  ((cs.dropWhile isStripWs).reverse.dropWhile isStripWs).reverse

/-- `line_bytes.decode('utf-8', errors='replace')`: a whole-string
decode — run the incremental decoder and flush a truncated tail as one
replacement character (one maximal subpart). -/
def lineDecode (bytes : List Nat) : List Nat :=
  let r := utf8Decode [] bytes
  r.2 ++ (if r.1.isEmpty then [] else [0xfffd])

def dataPrefix : List Nat := strCodes "data: "
def doneLit : List Nat := [91, 68, 79, 78, 69, 93]
def choicesKey : List Nat := strCodes "choices"
def deltaKey : List Nat := strCodes "delta"

/-- `obj.get("choices", [{}])[0].get("delta", {}).get("content", "")`:
`none` = death (e.g. `choices` present but `[]` → `IndexError`, or a
non-dict at any `.get`), `some none` = falsy content, `some (some d)` =
yield `d`. -/
def sseExtract (obj : JVal) : Option (Option JVal) :=
  match pyGetD obj choicesKey (.arr [.obj []]) with
  | none => none
  | some choices =>
    match pyIndex0 choices with
    | none => none
    | some c0 =>
      match pyGetD c0 deltaKey (.obj []) with
      | none => none
      | some delta =>
        match pyGetD delta contentKey (.str []) with
        | none => none
        | some content => some (if pyTruthy content then some content else none)

inductive LineOut where
  | skip       -- not a `data: ` line, or `json.JSONDecodeError` → `pass`
  | noEmit     -- decoded fine, falsy content
  | emit (d : JVal)
  | stop       -- `[DONE]` → `return`
  | die        -- uncaught exception

/-- Processing of one complete line of `stream_openai_compatible`. -/
def lineStep (lineBytes : List Nat) : LineOut :=
  let line := lineDecode lineBytes
  if line.take 6 = dataPrefix then
    let dataStr := stripCodes (line.drop 6)
    if dataStr = doneLit then .stop
    else
      match rawDecode dataStr with
      | none => .skip
      | some (obj, _) =>
        match sseExtract obj with
        | none => .die
        | some none => .noEmit
        | some (some d) => .emit d
  else .skip

inductive SseMode where
  | alive
  | done    -- returned at `[DONE]`
  | dead    -- returned at an uncaught exception
deriving DecidableEq, Repr

/-- Sequential processing of complete lines, with the two early returns. -/
def processLines : List (List Nat) → List JVal × SseMode
  | [] => ([], .alive)
  | l :: rest =>
    match lineStep l with
    | .stop => ([], .done)
    | .die => ([], .dead)
    | .emit d =>
      let r := processLines rest
      (d :: r.1, r.2)
    | _ => processLines rest

/-- Split at the first `\n` byte: `buffer.split(b"\n", 1)`, `none` when
no newline is present. -/
def splitNl : List Nat → Option (List Nat × List Nat)
  | [] => none
  | c :: rest =>
    if c = 10 then some ([], rest)
    else (splitNl rest).map fun p => (c :: p.1, p.2)

structure SseState where
  buffer : List Nat   -- raw bytes
  mode : SseMode

def sseInit : SseState := ⟨[], .alive⟩

/-- All complete lines of the buffer plus the newline-free residual
(fuel-indexed; any fuel above the buffer length is enough). -/
def splitLinesGo : Nat → List Nat → List (List Nat) × List Nat
  | 0, buf => ([], buf)
  | f + 1, buf =>
    match splitNl buf with
    | none => ([], buf)
    | some (line, rest) =>
      let r := splitLinesGo f rest
      (line :: r.1, r.2)

def splitLines (buf : List Nat) : List (List Nat) × List Nat :=
  splitLinesGo (buf.length + 1) buf

/-- One `for chunk in chunk_gen` iteration of `stream_openai_compatible`:
skip empty chunks, append to the byte buffer, split off every complete
line and process them in order.  Once `[DONE]` or an uncaught exception
has returned from the generator (mode ≠ alive) nothing more is emitted;
the buffer kept in those modes is immaterial, so the split may run to
the end even though the code's loop returns mid-buffer. -/
def sseFeed (st : SseState) (chunk : List Nat) : SseState × List JVal :=
  if st.mode ≠ .alive then (st, [])
  else if chunk = [] then (st, [])
  else
    let buf := st.buffer ++ chunk
    let sp := splitLines buf
    let r := processLines sp.1
    (⟨sp.2, r.2⟩, r.1)

def sseFeedList : SseState → List (List Nat) → SseState × List JVal
  | st, [] => (st, [])
  | st, c :: rest =>
    let r := sseFeed st c
    let r2 := sseFeedList r.1 rest
    (r2.1, r.2 ++ r2.2)

/-! ## Upstream status handling (`if res.status_code != 200`) -/

inductive StreamOutcome where
  | upstreamError   -- non-200 upstream status: drain `chunk_gen`, log, return
  | finished        -- consumed the whole body
  | terminated      -- returned early at `[DONE]`
  | died            -- an uncaught exception ended the generator
deriving DecidableEq, Repr

structure StreamRun where
  deltas : List JVal
  outcome : StreamOutcome
  drained : Bool    -- was the upstream body consumed to the end?

/-- `stream_gemini` from the response status: on any status other than
200, drain the body (`for _ in chunk_gen: pass`), log, and return
without touching the decoder. -/
def streamGemini (status : Nat) (chunks : List (List Nat)) : StreamRun :=
  if status ≠ 200 then ⟨[], .upstreamError, true⟩
  else
    let r := gemFeedList gemInit chunks
    ⟨r.2, if r.1.alive then .finished else .died, r.1.alive⟩

/-- `stream_openai_compatible` from the response status, same shape. -/
def streamOpenAI (status : Nat) (chunks : List (List Nat)) : StreamRun :=
  if status ≠ 200 then ⟨[], .upstreamError, true⟩
  else
    let r := sseFeedList sseInit chunks
    ⟨r.2,
      match r.1.mode with
      | .alive => .finished
      | .done => .terminated
      | .dead => .died,
      r.1.mode = .alive⟩

/-! ## Claim theorems for the decoders -/

/-- C4: for every upstream response whose HTTP status is not 2xx, both
decoder strategies emit zero TextDeltas, reach the terminal upstream-
failure state (distinct from the decode-death outcome), and drain the
body; the result is a constant — independent of the body — so no
decoding is attempted.  (The code tests `status_code != 200`, which the
non-2xx statuses all satisfy.) -/
theorem non2xx_terminal (status : Nat) (chunks : List (List Nat))
    (h : ¬(200 ≤ status ∧ status < 300)) :
    streamGemini status chunks = ⟨[], .upstreamError, true⟩ ∧
    streamOpenAI status chunks = ⟨[], .upstreamError, true⟩ ∧
    StreamOutcome.upstreamError ≠ StreamOutcome.died := by
  have hne : status ≠ 200 := by omega
  exact ⟨by simp [streamGemini, hne], by simp [streamOpenAI, hne], by simp⟩

/-- Witness for C4 at status 404 with a non-trivial body. -/
theorem non2xx_terminal_witness :
    streamGemini 404 [strCodes "\x7b\"error\": 1\x7d"] = ⟨[], .upstreamError, true⟩ ∧
    streamOpenAI 404 [strCodes "data: [DONE]\n"] = ⟨[], .upstreamError, true⟩ :=
  ⟨(non2xx_terminal 404 [strCodes "\x7b\"error\": 1\x7d"] (by decide)).1,
   (non2xx_terminal 404 [strCodes "data: [DONE]\n"] (by decide)).2.1⟩

/-- The exact byte sequence of C2. -/
def c2Input : List Nat :=
  strCodes "data: \x7b\"choices\":[\x7b\"delta\":\x7b\"content\":\"Hi\"\x7d\x7d]\x7d\n\ndata: [DONE]\n\n"

/-- C2: feeding the event-stream decoder the exact bytes
`data: {"choices":[{"delta":{"content":"Hi"}}]}\n\ndata: [DONE]\n\n`
produces exactly the one TextDelta `"Hi"` and the terminal `[DONE]`
completion, and any bytes fed afterwards produce nothing. -/
theorem sse_exact_done :
    (sseFeed sseInit c2Input).2 = [.str (strCodes "Hi")] ∧
    (sseFeed sseInit c2Input).1.mode = .done ∧
    (∀ more : List Nat,
      sseFeed (sseFeed sseInit c2Input).1 more = ((sseFeed sseInit c2Input).1, [])) := by
  refine ⟨rfl, rfl, ?_⟩
  intro more
  have hm : (sseFeed sseInit c2Input).1.mode = .done := rfl
  rw [sseFeed, if_pos]
  rw [hm]
  simp

/-- C5: a `data: ` line whose payload is not the `[DONE]` sentinel and
fails to JSON-parse is dropped and processing continues: the output over
any line sequence containing such a line — deltas and terminal mode —
equals the output over the same sequence without it. -/
theorem malformed_line_dropped (pre post : List (List Nat)) (bad : List Nat)
    (h1 : (lineDecode bad).take 6 = dataPrefix)
    (h2 : stripCodes ((lineDecode bad).drop 6) ≠ doneLit)
    (h3 : rawDecode (stripCodes ((lineDecode bad).drop 6)) = none) :
    processLines (pre ++ bad :: post) = processLines (pre ++ post) := by
  have hstep : lineStep bad = .skip := by
    rw [lineStep]
    simp only [h1, if_pos, h3]
    rw [if_neg h2]
  induction pre with
  | nil => simp [processLines, hstep]
  | cons l rest ih =>
    simp only [List.cons_append, processLines]
    cases lineStep l <;> simp [ih]

/-- Witness for C5: a keep-alive garbage line between two well-formed
units is dropped without affecting the output. -/
theorem malformed_line_dropped_witness :
    processLines [strCodes "data: \x7b\"choices\":[\x7b\"delta\":\x7b\"content\":\"Hi\"\x7d\x7d]\x7d",
      strCodes "data: keep-alive", strCodes "data: [DONE]"] =
    processLines [strCodes "data: \x7b\"choices\":[\x7b\"delta\":\x7b\"content\":\"Hi\"\x7d\x7d]\x7d",
      strCodes "data: [DONE]"] :=
  malformed_line_dropped
    [strCodes "data: \x7b\"choices\":[\x7b\"delta\":\x7b\"content\":\"Hi\"\x7d\x7d]\x7d"]
    [strCodes "data: [DONE]"] (strCodes "data: keep-alive") rfl (by decide) rfl

/-! ## Generic takeWhile/dropWhile append lemmas -/

theorem dropWhile_append_cons {p : Nat → Bool} {a l : List Nat} {c : Nat}
    (h : a.dropWhile p = c :: l) (t : List Nat) :
    (a ++ t).dropWhile p = c :: (l ++ t) := by
  induction a with
  | nil => simp [List.dropWhile] at h
  | cons x xs ih =>
    rw [List.dropWhile] at h
    rcases hx : p x with _ | _
    · rw [hx] at h
      cases h
      simp [List.dropWhile, hx]
    · rw [hx] at h
      simpa [List.dropWhile, hx] using ih h

theorem dropWhile_append_nil {p : Nat → Bool} {a : List Nat}
    (h : a.dropWhile p = []) (t : List Nat) :
    (a ++ t).dropWhile p = t.dropWhile p := by
  induction a with
  | nil => simp
  | cons x xs ih =>
    rw [List.dropWhile] at h
    rcases hx : p x with _ | _
    · rw [hx] at h
      simp at h
    · rw [hx] at h
      simpa [List.dropWhile, hx] using ih h

theorem takeWhile_append_cons {p : Nat → Bool} {a l : List Nat} {c : Nat}
    (h : a.dropWhile p = c :: l) (t : List Nat) :
    (a ++ t).takeWhile p = a.takeWhile p := by
  induction a with
  | nil => simp [List.dropWhile] at h
  | cons x xs ih =>
    rw [List.dropWhile] at h
    rcases hx : p x with _ | _
    · rw [hx] at h
      cases h
      simp [List.takeWhile, hx]
    · rw [hx] at h
      simp [List.takeWhile, hx, ih h]

theorem dropWhile_head_false {p : Nat → Bool} {a l : List Nat} {c : Nat}
    (h : a.dropWhile p = c :: l) : p c = false := by
  induction a with
  | nil => simp [List.dropWhile] at h
  | cons x xs ih =>
    rw [List.dropWhile] at h
    rcases hx : p x with _ | _
    · rw [hx] at h
      cases h
      exact hx
    · rw [hx] at h
      exact ih h

theorem dropWhile_head_false_self {p : Nat → Bool} {l : List Nat} {c : Nat}
    (h : p c = false) : (c :: l).dropWhile p = c :: l := by
  simp [List.dropWhile, h]

/-! ## skipWs corollaries -/

theorem dropWhile_le {p : Nat → Bool} (cs : List Nat) :
    (cs.dropWhile p).length ≤ cs.length := by
  induction cs with
  | nil => simp
  | cons x xs ih =>
    rw [List.dropWhile]
    rcases hx : p x with _ | _
    · simp
    · simp only [List.length_cons]
      omega

theorem skipWs_le (cs : List Nat) : (skipWs cs).length ≤ cs.length :=
  dropWhile_le cs

theorem skipWs_append_cons {a l : List Nat} {c : Nat} (h : skipWs a = c :: l)
    (t : List Nat) : skipWs (a ++ t) = c :: (l ++ t) :=
  dropWhile_append_cons h t

theorem skipWs_append_nil {a : List Nat} (h : skipWs a = []) (t : List Nat) :
    skipWs (a ++ t) = skipWs t :=
  dropWhile_append_nil h t

theorem skipWs_head {a l : List Nat} {c : Nat} (h : skipWs a = c :: l) :
    isJsonWs c = false :=
  dropWhile_head_false h

theorem skipWs_cons_of_head {l : List Nat} {c : Nat} (h : isJsonWs c = false) :
    skipWs (c :: l) = c :: l :=
  dropWhile_head_false_self h

/-! ## Consumption: every successful parse consumes at least one character -/

theorem parseStringBody_len : ∀ {cs : List Nat} {s rest : List Nat},
    parseStringBody cs = some (s, rest) → rest.length < cs.length := by
  intro cs
  induction cs using parseStringBody.induct with
  | case1 =>
    intro s rest h
    rw [parseStringBody.eq_def] at h
    simp at h
  | case2 r =>
    intro s rest h
    rw [parseStringBody.eq_def] at h
    simp at h
    rw [← h.2]
    simp
  | case3 =>
    intro s rest h
    rw [parseStringBody.eq_def] at h
    simp at h
  | case4 a b c d t2 hhex =>
    intro s rest h
    rw [parseStringBody.eq_def] at h
    simp [hhex] at h
  | case5 a b c d t2 u hhex hne ih =>
    intro s rest h
    rw [parseStringBody.eq_def] at h
    simp only [hhex] at h
    norm_num at h
    obtain ⟨x, y, hp, heq⟩ := h
    have hrest : y = rest := by
      by_cases hc : 55296 ≤ u ∧ u ≤ 56319 ∧ nextIsLowSurrEscape t2 = true
      · rw [if_pos hc] at heq
        rcases x with _ | ⟨u2, tl⟩
        · exact congrArg Prod.snd heq
        · exact congrArg Prod.snd heq
      · rw [if_neg hc] at heq
        exact congrArg Prod.snd heq
    have hlen := ih hp
    rw [← hrest]
    simp only [List.length_cons]
    omega
  | case6 r hshape =>
    intro s rest h
    rw [parseStringBody.eq_def] at h
    rcases r with _ | ⟨a, r2⟩
    · simp at h
    · rcases r2 with _ | ⟨b, r3⟩
      · simp at h
      · rcases r3 with _ | ⟨c, r4⟩
        · simp at h
        · rcases r4 with _ | ⟨d, r5⟩
          · simp at h
          · exact absurd rfl (fun hx => hshape a b c d r5 hx)
  | case7 c r hne u2 hesc h92 ih =>
    intro s rest h
    rw [parseStringBody.eq_def] at h
    simp only [hesc] at h
    norm_num [hne] at h
    obtain ⟨x, hp, heq⟩ := h
    have hlen := ih hp
    simp only [List.length_cons]
    omega
  | case8 c r hne hesc h92 =>
    intro s rest h
    rw [parseStringBody.eq_def] at h
    simp only [hesc] at h
    norm_num [hne] at h
    simp at h
  | case9 c r h34 h92 hlt =>
    intro s rest h
    rw [parseStringBody.eq_def] at h
    norm_num [h34, h92, hlt] at h
    simp at h
  | case10 c r h34 h92 hlt ih =>
    intro s rest h
    rw [parseStringBody.eq_def] at h
    norm_num [h34, h92, hlt] at h
    obtain ⟨x, hp, heq⟩ := h
    have hlen := ih hp
    simp only [List.length_cons]
    omega

theorem parseIntPart_len {cs ip r1 : List Nat}
    (h : parseIntPart cs = some (ip, r1)) : r1.length < cs.length := by
  match cs with
  | [] => simp [parseIntPart] at h
  | c :: rest =>
    rw [parseIntPart] at h
    by_cases h48 : c = 48
    · simp [h48] at h
      rw [← h.2]
      simp
    · rw [if_neg h48] at h
      by_cases h19 : 49 ≤ c ∧ c ≤ 57
      · rw [if_pos h19] at h
        simp at h
        rw [← h.2]
        have := dropWhile_le (p := isDigitC) rest
        simp
        omega
      · simp [if_neg h19] at h

theorem parseFracPart_len (cs : List Nat) :
    (parseFracPart cs).2.length ≤ cs.length := by
  match cs with
  | [] => simp [parseFracPart]
  | c :: rest =>
    rw [parseFracPart]
    by_cases h46 : c = 46
    · simp only [h46, if_pos rfl]
      by_cases hd : rest.takeWhile isDigitC = []
      · simp [hd]
      · rw [if_neg hd]
        have := dropWhile_le (p := isDigitC) rest
        simp
        omega
    · simp [h46]

theorem parseExpPart_len (cs : List Nat) :
    (parseExpPart cs).2.length ≤ cs.length := by
  match cs with
  | [] => simp [parseExpPart]
  | e :: rest =>
    rw [parseExpPart.eq_def]
    dsimp only
    by_cases he : e = 101 ∨ e = 69
    · rw [if_pos he]
      match rest with
      | [] => simp
      | s :: rest2 =>
        dsimp only
        by_cases hs : s = 43 ∨ s = 45
        · rw [if_pos hs]
          by_cases hd : rest2.takeWhile isDigitC = []
          · simp [hd]
          · rw [if_neg hd]
            have := dropWhile_le (p := isDigitC) rest2
            simp
            omega
        · rw [if_neg hs]
          by_cases hd : (s :: rest2).takeWhile isDigitC = []
          · simp [hd]
          · rw [if_neg hd]
            have := dropWhile_le (p := isDigitC) (s :: rest2)
            simp at this ⊢
            omega
    · simp [he]

theorem parseNumCore_len {cs lex rest : List Nat}
    (h : parseNumCore cs = some (lex, rest)) : rest.length < cs.length := by
  rw [parseNumCore] at h
  rcases hip : parseIntPart cs with _ | ⟨ip, r1⟩
  · rw [hip] at h
    simp at h
  · rw [hip] at h
    simp at h
    have h1 := parseIntPart_len hip
    have h2 := parseFracPart_len r1
    have h3 := parseExpPart_len (parseFracPart r1).2
    rw [← h.2]
    omega

theorem parseNumber_len {cs lex rest : List Nat}
    (h : parseNumber cs = some (lex, rest)) : rest.length < cs.length := by
  match cs with
  | [] => simp [parseNumber] at h
  | c :: r =>
    rw [parseNumber] at h
    by_cases h45 : c = 45
    · rw [if_pos h45] at h
      rcases hc : parseNumCore r with _ | ⟨lex2, rest2⟩
      · rw [hc] at h
        simp at h
      · rw [hc] at h
        simp at h
        have := parseNumCore_len hc
        rw [← h.2]
        simp
        omega
    · rw [if_neg h45] at h
      exact parseNumCore_len h

theorem parseConsume : ∀ f : Nat,
    (∀ cs v rest, parseVal f cs = some (v, rest) → rest.length < cs.length) ∧
    (∀ first cs fs rest, parseFields f first cs = some (fs, rest) →
      rest.length < cs.length) ∧
    (∀ first cs vs rest, parseElems f first cs = some (vs, rest) →
      rest.length < cs.length) := by
  intro f
  induction f with
  | zero =>
    refine ⟨?_, ?_, ?_⟩
    · intro cs v rest h
      rw [parseVal.eq_def] at h
      dsimp only at h
      exact Option.noConfusion h
    · intro first cs fs rest h
      rw [parseFields.eq_def] at h
      dsimp only at h
      exact Option.noConfusion h
    · intro first cs vs rest h
      rw [parseElems.eq_def] at h
      dsimp only at h
      exact Option.noConfusion h
  | succ f ih =>
    obtain ⟨ihV, ihF, ihE⟩ := ih
    refine ⟨?_, ?_, ?_⟩
    · -- parseVal
      intro cs v rest h
      match cs with
      | [] => simp [parseVal] at h
      | c :: r =>
        rw [parseVal.eq_def] at h
        dsimp only at h
        by_cases h34 : c = 34
        · rw [if_pos h34] at h
          rcases hp : parseStringBody r with _ | p
          · rw [hp] at h
            simp at h
          · rw [hp] at h
            simp only [Option.map_some', Option.some.injEq] at h
            have := parseStringBody_len hp
            have h2 := congrArg Prod.snd h
            simp at h2
            rw [← h2]
            simp only [List.length_cons]
            omega
        · rw [if_neg h34] at h
          by_cases h123 : c = 123
          · rw [if_pos h123] at h
            rcases hp : parseFields f true (skipWs r) with _ | p
            · rw [hp] at h
              simp at h
            · rw [hp] at h
              simp only [Option.map_some', Option.some.injEq] at h
              have := ihF true (skipWs r) p.1 p.2 (by rw [hp])
              have h2 := congrArg Prod.snd h
              simp at h2
              have h3 := skipWs_le r
              rw [← h2]
              simp only [List.length_cons]
              omega
          · rw [if_neg h123] at h
            by_cases h91 : c = 91
            · rw [if_pos h91] at h
              rcases hp : parseElems f true r with _ | p
              · rw [hp] at h
                simp at h
              · rw [hp] at h
                simp only [Option.map_some', Option.some.injEq] at h
                have := ihE true r p.1 p.2 (by rw [hp])
                have h2 := congrArg Prod.snd h
                simp at h2
                rw [← h2]
                simp only [List.length_cons]
                omega
            · rw [if_neg h91] at h
              by_cases hnul : (c :: r).take 4 = nullLit
              · rw [if_pos hnul] at h
                simp only [Option.some.injEq, Prod.mk.injEq] at h
                rw [← h.2]
                simp only [List.length_drop, List.length_cons]
                omega
              · rw [if_neg hnul] at h
                by_cases htr : (c :: r).take 4 = trueLit
                · rw [if_pos htr] at h
                  simp only [Option.some.injEq, Prod.mk.injEq] at h
                  rw [← h.2]
                  simp only [List.length_drop, List.length_cons]
                  omega
                · rw [if_neg htr] at h
                  by_cases hfa : (c :: r).take 5 = falseLit
                  · rw [if_pos hfa] at h
                    simp only [Option.some.injEq, Prod.mk.injEq] at h
                    rw [← h.2]
                    simp only [List.length_drop, List.length_cons]
                    omega
                  · rw [if_neg hfa] at h
                    rcases hn : parseNumber (c :: r) with _ | p
                    · rw [hn] at h
                      by_cases hna : (c :: r).take 3 = nanLit
                      · rw [if_pos hna] at h
                        simp only [Option.some.injEq, Prod.mk.injEq] at h
                        rw [← h.2]
                        simp only [List.length_drop, List.length_cons]
                        omega
                      · rw [if_neg hna] at h
                        by_cases hin : (c :: r).take 8 = infLit
                        · rw [if_pos hin] at h
                          simp only [Option.some.injEq, Prod.mk.injEq] at h
                          rw [← h.2]
                          simp only [List.length_drop, List.length_cons]
                          omega
                        · rw [if_neg hin] at h
                          by_cases hni : (c :: r).take 9 = neginfLit
                          · rw [if_pos hni] at h
                            simp only [Option.some.injEq, Prod.mk.injEq] at h
                            rw [← h.2]
                            simp only [List.length_drop, List.length_cons]
                            omega
                          · rw [if_neg hni] at h
                            simp at h
                    · rw [hn] at h
                      simp only [Option.some.injEq, Prod.mk.injEq] at h
                      have := parseNumber_len hn
                      rw [← h.2]
                      exact this
    · -- parseFields
      intro first cs fs rest h
      match cs with
      | [] => simp [parseFields] at h
      | c :: r =>
        rw [parseFields.eq_def] at h
        dsimp only at h
        by_cases hcl : first ∧ c = 125
        · rw [if_pos hcl] at h
          simp only [Option.some.injEq, Prod.mk.injEq] at h
          rw [← h.2]
          simp
        · rw [if_neg hcl] at h
          by_cases h34 : c = 34
          · rw [if_pos h34] at h
            rcases hk : parseStringBody r with _ | ⟨key, r1⟩
            · rw [hk] at h
              simp at h
            · rw [hk] at h
              dsimp only at h
              have hk1 := parseStringBody_len hk
              rcases hw1 : skipWs r1 with _ | ⟨c2, r2⟩
              · rw [hw1] at h
                simp at h
              · rw [hw1] at h
                dsimp only at h
                have hw1l : r2.length < r1.length := by
                  have := skipWs_le r1
                  rw [hw1] at this
                  simp at this
                  omega
                by_cases h58 : c2 = 58
                · rw [if_pos h58] at h
                  rcases hv : parseVal f (skipWs r2) with _ | ⟨v2, r3⟩
                  · rw [hv] at h
                    simp at h
                  · rw [hv] at h
                    dsimp only at h
                    have hvl : r3.length < r2.length := by
                      have h1 := ihV (skipWs r2) v2 r3 (by rw [hv])
                      have h2 := skipWs_le r2
                      omega
                    rcases hw2 : skipWs r3 with _ | ⟨c3, r4⟩
                    · rw [hw2] at h
                      simp at h
                    · rw [hw2] at h
                      dsimp only at h
                      have hw2l : r4.length < r3.length := by
                        have := skipWs_le r3
                        rw [hw2] at this
                        simp at this
                        omega
                      by_cases hc3 : c3 = 125
                      · rw [if_pos hc3] at h
                        simp only [Option.some.injEq, Prod.mk.injEq] at h
                        rw [← h.2]
                        simp only [List.length_cons]
                        omega
                      · rw [if_neg hc3] at h
                        by_cases hc4 : c3 = 44
                        · rw [if_pos hc4] at h
                          rcases hf : parseFields f false (skipWs r4) with _ | pf
                          · rw [hf] at h
                            simp at h
                          · rw [hf] at h
                            simp only [Option.map_some', Option.some.injEq] at h
                            have hfl := ihF false (skipWs r4) pf.1 pf.2 (by rw [hf])
                            have h2 := congrArg Prod.snd h
                            simp at h2
                            have h3 := skipWs_le r4
                            rw [← h2]
                            simp only [List.length_cons]
                            omega
                        · rw [if_neg hc4] at h
                          simp at h
                · rw [if_neg h58] at h
                  simp at h
          · rw [if_neg h34] at h
            simp at h
    · -- parseElems
      intro first cs vs rest h
      rw [parseElems.eq_def] at h
      dsimp only at h
      rcases hw : skipWs cs with _ | ⟨c, r⟩
      · rw [hw] at h
        simp at h
      · rw [hw] at h
        dsimp only at h
        have hwl : r.length < cs.length := by
          have := skipWs_le cs
          rw [hw] at this
          simp at this
          omega
        by_cases hbr : first ∧ c = 93
        · rw [if_pos hbr] at h
          simp only [Option.some.injEq, Prod.mk.injEq] at h
          rw [← h.2]
          omega
        · rw [if_neg hbr] at h
          rcases hv : parseVal f (c :: r) with _ | ⟨v2, r1⟩
          · rw [hv] at h
            simp at h
          · rw [hv] at h
            dsimp only at h
            have hvl : r1.length ≤ r.length := by
              have := ihV (c :: r) v2 r1 (by rw [hv])
              simp at this
              omega
            rcases hw2 : skipWs r1 with _ | ⟨c2, r2⟩
            · rw [hw2] at h
              simp at h
            · rw [hw2] at h
              dsimp only at h
              have hw2l : r2.length < r1.length ∨ (r1.length = 0 ∧ r2.length = 0) := by
                have := skipWs_le r1
                rw [hw2] at this
                simp at this
                omega
              by_cases hc2 : c2 = 93
              · rw [if_pos hc2] at h
                simp only [Option.some.injEq, Prod.mk.injEq] at h
                rw [← h.2]
                omega
              · rw [if_neg hc2] at h
                by_cases hc3 : c2 = 44
                · rw [if_pos hc3] at h
                  rcases he : parseElems f false r2 with _ | pe
                  · rw [he] at h
                    simp at h
                  · rw [he] at h
                    simp only [Option.map_some', Option.some.injEq] at h
                    have hel := ihE false r2 pe.1 pe.2 (by rw [he])
                    have h2 := congrArg Prod.snd h
                    simp at h2
                    rw [← h2]
                    omega
                · rw [if_neg hc3] at h
                  simp at h

theorem parseVal_len {f : Nat} {cs rest : List Nat} {v : JVal}
    (h : parseVal f cs = some (v, rest)) : rest.length < cs.length :=
  (parseConsume f).1 cs v rest h

theorem rawDecode_len {cs rest : List Nat} {v : JVal}
    (h : rawDecode cs = some (v, rest)) : rest.length < cs.length :=
  parseVal_len h

/-! ## The drain loop: fuel irrelevance and unfolding -/

theorem drainGo_irrel : ∀ (n f g : Nat) (buf : List Nat), buf.length ≤ n →
    buf.length < f → buf.length < g → drainGo f buf = drainGo g buf := by
  intro n
  induction n with
  | zero =>
    intro f g buf hn hf hg
    match f, g with
    | f + 1, g + 1 =>
      have hbuf : buf = [] := List.length_eq_zero.mp (Nat.le_zero.mp hn)
      subst hbuf
      rfl
  | succ n ihn =>
    intro f g buf hn hf hg
    match f, g with
    | f + 1, g + 1 =>
      rw [drainGo, drainGo]
      dsimp only
      by_cases hb : skipWs buf = []
      · rw [if_pos hb, if_pos hb]
      · rw [if_neg hb, if_neg hb]
        rcases hd : rawDecode (skipWs buf) with _ | ⟨v, rest⟩
        · rfl
        · dsimp only
          have hrest : rest.length < buf.length := by
            have h1 := rawDecode_len hd
            have h2 := skipWs_le buf
            omega
          rcases he : extractDoc v with ⟨ds, died⟩
          rcases died with _ | _
          · dsimp only
            have : drainGo f rest = drainGo g rest := by
              apply ihn <;> omega
            rw [this]
          · dsimp only

theorem drain_eq (buf : List Nat) : drain buf =
    (if skipWs buf = [] then ([], [], true)
     else
       match rawDecode (skipWs buf) with
       | none => ([], skipWs buf, true)
       | some (v, rest) =>
         match extractDoc v with
         | (ds, true) => (ds, rest, false)
         | (ds, false) =>
           let r := drain rest
           (ds ++ r.1, r.2.1, r.2.2)) := by
  rw [drain, drainGo]
  dsimp only
  by_cases hb : skipWs buf = []
  · rw [if_pos hb, if_pos hb]
  · rw [if_neg hb, if_neg hb]
    rcases hd : rawDecode (skipWs buf) with _ | ⟨v, rest⟩
    · rfl
    · dsimp only
      have hrest : rest.length < buf.length := by
        have h1 := rawDecode_len hd
        have h2 := skipWs_le buf
        omega
      rcases he : extractDoc v with ⟨ds, died⟩
      rcases died with _ | _
      · dsimp only
        have : drainGo buf.length rest = drain rest := by
          rw [drain]
          apply drainGo_irrel rest.length <;> omega
        rw [this]
      · dsimp only

/-- A buffer on which `drain` stalls alive: every complete leading
document has been consumed — the remainder is empty, or starts with a
non-whitespace character and holds no complete JSON document at its
front. -/
def drainStalled (r : List Nat) : Prop :=
  r = [] ∨ (∃ c l, r = c :: l ∧ isJsonWs c = false ∧ rawDecode r = none)

theorem drain_residual : ∀ (n : Nat) (buf : List Nat), buf.length ≤ n →
    ∀ E r, drain buf = (E, r, true) → drainStalled r := by
  intro n
  induction n with
  | zero =>
    intro buf hn E r h
    have hbuf : buf = [] := List.length_eq_zero.mp (Nat.le_zero.mp hn)
    subst hbuf
    rw [drain_eq] at h
    simp [skipWs] at h
    exact Or.inl h.2
  | succ n ihn =>
    intro buf hn E r h
    rw [drain_eq] at h
    by_cases hb : skipWs buf = []
    · rw [if_pos hb] at h
      simp at h
      exact Or.inl h.2
    · rw [if_neg hb] at h
      rcases hd : rawDecode (skipWs buf) with _ | ⟨v, rest⟩
      · rw [hd] at h
        simp at h
        rcases hsw : skipWs buf with _ | ⟨c, l⟩
        · exact absurd hsw hb
        · refine Or.inr ⟨c, l, ?_, skipWs_head hsw, ?_⟩
          · rw [← h.2, hsw]
          · rw [← h.2]
            exact hd
      · rw [hd] at h
        have hrest : rest.length ≤ n := by
          have h1 := rawDecode_len hd
          have h2 := skipWs_le buf
          omega
        dsimp only at h
        rcases he : extractDoc v with ⟨ds, died⟩
        rw [he] at h
        rcases died with _ | _
        · dsimp only at h
          have halive : (drain rest).2.2 = true := congrArg (fun p => p.2.2) h
          have hr : (drain rest).2.1 = r := congrArg (fun p => p.2.1) h
          have hdr : drain rest = ((drain rest).1, r, true) := by
            rw [← hr, ← halive]
          exact ihn rest hrest (drain rest).1 r hdr
        · dsimp only at h
          exact absurd (congrArg (fun p => p.2.2) h) (by simp)

/-! ## Fuel monotonicity of the scanner -/

theorem parseMono : ∀ f : Nat,
    (∀ g cs r, f ≤ g → parseVal f cs = some r → parseVal g cs = some r) ∧
    (∀ g first cs r, f ≤ g → parseFields f first cs = some r →
      parseFields g first cs = some r) ∧
    (∀ g first cs r, f ≤ g → parseElems f first cs = some r →
      parseElems g first cs = some r) := by
  intro f
  induction f with
  | zero =>
    refine ⟨?_, ?_, ?_⟩
    · intro g cs r hle h
      rw [parseVal.eq_def] at h
      dsimp only at h
      exact Option.noConfusion h
    · intro g first cs r hle h
      rw [parseFields.eq_def] at h
      dsimp only at h
      exact Option.noConfusion h
    · intro g first cs r hle h
      rw [parseElems.eq_def] at h
      dsimp only at h
      exact Option.noConfusion h
  | succ f ih =>
    obtain ⟨ihV, ihF, ihE⟩ := ih
    refine ⟨?_, ?_, ?_⟩
    · -- parseVal
      intro g cs r hle h
      match g, hle with
      | g + 1, hle =>
        have hfg : f ≤ g := Nat.le_of_succ_le_succ hle
        match cs with
        | [] =>
          rw [parseVal.eq_def] at h
          dsimp only at h
          exact Option.noConfusion h
        | c :: cr =>
          rw [parseVal.eq_def] at h ⊢
          try dsimp only at h
          try dsimp only
          by_cases h34 : c = 34
          · rw [if_pos h34] at h ⊢
            exact h
          · rw [if_neg h34] at h ⊢
            by_cases h123 : c = 123
            · rw [if_pos h123] at h ⊢
              rcases hp : parseFields f true (skipWs cr) with _ | p
              · rw [hp] at h
                exact Option.noConfusion h
              · rw [hp] at h
                rw [ihF g true (skipWs cr) p hfg hp]
                exact h
            · rw [if_neg h123] at h ⊢
              by_cases h91 : c = 91
              · rw [if_pos h91] at h ⊢
                rcases hp : parseElems f true cr with _ | p
                · rw [hp] at h
                  exact Option.noConfusion h
                · rw [hp] at h
                  rw [ihE g true cr p hfg hp]
                  exact h
              · rw [if_neg h91] at h ⊢
                exact h
    · -- parseFields
      intro g first cs r hle h
      match g, hle with
      | g + 1, hle =>
        have hfg : f ≤ g := Nat.le_of_succ_le_succ hle
        match cs with
        | [] =>
          rw [parseFields.eq_def] at h
          dsimp only at h
          exact Option.noConfusion h
        | c :: cr =>
          rw [parseFields.eq_def] at h ⊢
          try dsimp only at h
          try dsimp only
          by_cases hcl : first = true ∧ c = 125
          · rw [if_pos hcl] at h ⊢
            exact h
          · rw [if_neg hcl] at h ⊢
            by_cases h34 : c = 34
            · rw [if_pos h34] at h ⊢
              rcases hk : parseStringBody cr with _ | ⟨key, r1⟩
              · rw [hk] at h
                exact Option.noConfusion h
              · try rw [hk] at h

                try rw [hk]
                try dsimp only at h
                try dsimp only
                rcases hw1 : skipWs r1 with _ | ⟨c2, r2⟩
                · rw [hw1] at h
                  exact Option.noConfusion h
                · try rw [hw1] at h

                  try rw [hw1]
                  try dsimp only at h
                  try dsimp only
                  by_cases h58 : c2 = 58
                  · rw [if_pos h58] at h ⊢
                    rcases hv : parseVal f (skipWs r2) with _ | ⟨v2, r3⟩
                    · rw [hv] at h
                      exact Option.noConfusion h
                    · rw [hv] at h
                      rw [ihV g (skipWs r2) (v2, r3) hfg hv]
                      try dsimp only at h
                      try dsimp only
                      rcases hw2 : skipWs r3 with _ | ⟨c3, r4⟩
                      · rw [hw2] at h
                        exact Option.noConfusion h
                      · try rw [hw2] at h

                        try rw [hw2]
                        try dsimp only at h
                        try dsimp only
                        by_cases hc3 : c3 = 125
                        · rw [if_pos hc3] at h ⊢
                          exact h
                        · rw [if_neg hc3] at h ⊢
                          by_cases hc4 : c3 = 44
                          · rw [if_pos hc4] at h ⊢
                            rcases hfr : parseFields f false (skipWs r4) with _ | pf
                            · rw [hfr] at h
                              exact Option.noConfusion h
                            · rw [hfr] at h
                              rw [ihF g false (skipWs r4) pf hfg hfr]
                              exact h
                          · rw [if_neg hc4] at h
                            exact Option.noConfusion h
                  · rw [if_neg h58] at h
                    exact Option.noConfusion h
            · rw [if_neg h34] at h
              exact Option.noConfusion h
    · -- parseElems
      intro g first cs r hle h
      match g, hle with
      | g + 1, hle =>
        have hfg : f ≤ g := Nat.le_of_succ_le_succ hle
        rw [parseElems.eq_def] at h ⊢
        try dsimp only at h
        try dsimp only
        rcases hw : skipWs cs with _ | ⟨c, cr⟩
        · rw [hw] at h
          exact Option.noConfusion h
        · try rw [hw] at h

          try rw [hw]
          try dsimp only at h
          try dsimp only
          by_cases hbr : first = true ∧ c = 93
          · rw [if_pos hbr] at h ⊢
            exact h
          · rw [if_neg hbr] at h ⊢
            rcases hv : parseVal f (c :: cr) with _ | ⟨v2, r1⟩
            · rw [hv] at h
              exact Option.noConfusion h
            · rw [hv] at h
              rw [ihV g (c :: cr) (v2, r1) hfg hv]
              try dsimp only at h
              try dsimp only
              rcases hw2 : skipWs r1 with _ | ⟨c2, r2⟩
              · rw [hw2] at h
                exact Option.noConfusion h
              · try rw [hw2] at h

                try rw [hw2]
                try dsimp only at h
                try dsimp only
                by_cases hc2 : c2 = 93
                · rw [if_pos hc2] at h ⊢
                  exact h
                · rw [if_neg hc2] at h ⊢
                  by_cases hc3 : c2 = 44
                  · rw [if_pos hc3] at h ⊢
                    rcases he : parseElems f false r2 with _ | pe
                    · rw [he] at h
                      exact Option.noConfusion h
                    · rw [he] at h
                      rw [ihE g false r2 pe hfg he]
                      exact h
                  · rw [if_neg hc3] at h
                    exact Option.noConfusion h

theorem parseVal_mono {f g : Nat} {cs : List Nat} {r : JVal × List Nat}
    (hle : f ≤ g) (h : parseVal f cs = some r) : parseVal g cs = some r :=
  (parseMono f).1 g cs r hle h

/-! ## Stability: a successful parse is unchanged by appending input

The scanner reads left to right and stops at delimiters that are present
in the input, so appending bytes after a successfully parsed value
cannot change the parse — with the sole exception of a number whose
match ran to the end of the input (or whose optional groups could be
completed), which is why number stability carries a stop-character
condition. -/

theorem nextLow_head_ne {c : Nat} (rest : List Nat) (h : ¬c = 92) :
    nextIsLowSurrEscape (c :: rest) = false := by
  match rest with
  | x2 :: x3 :: x4 :: x5 :: x6 :: r6 =>
    rw [nextIsLowSurrEscape]
    simp [h]
  | [] => rfl
  | [x2] => rfl
  | [x2, x3] => rfl
  | [x2, x3, x4] => rfl
  | [x2, x3, x4, x5] => rfl

theorem nextLow_second_ne {c : Nat} (rest : List Nat) (h : ¬c = 117) :
    nextIsLowSurrEscape (92 :: c :: rest) = false := by
  match rest with
  | x3 :: x4 :: x5 :: x6 :: r6 =>
    rw [nextIsLowSurrEscape]
    simp [h]
  | [] => rfl
  | [x3] => rfl
  | [x3, x4] => rfl
  | [x3, x4, x5] => rfl

/-- The surrogate lookahead is append-invariant at any position where a
string body parses successfully. -/
theorem nextLow_stable : ∀ {u : List Nat} {s rest : List Nat} (t : List Nat),
    parseStringBody u = some (s, rest) →
    nextIsLowSurrEscape (u ++ t) = nextIsLowSurrEscape u := by
  intro u s rest t h
  match u with
  | x1 :: x2 :: x3 :: x4 :: x5 :: x6 :: r6 => rfl
  | [] =>
    rw [parseStringBody.eq_def] at h
    exact Option.noConfusion h
  | [x1] =>
    simp only [List.cons_append, List.nil_append]
    by_cases h34 : x1 = 34
    · subst h34
      rw [nextLow_head_ne t (by decide)]
      rfl
    · exfalso
      rw [parseStringBody.eq_def] at h
      dsimp only at h
      rw [if_neg h34] at h
      by_cases h92 : x1 = 92
      · rw [if_pos h92] at h
        exact Option.noConfusion h
      · rw [if_neg h92] at h
        by_cases hlt : x1 < 32
        · rw [if_pos hlt] at h
          exact Option.noConfusion h
        · rw [if_neg hlt] at h
          rw [show parseStringBody [] = none from rfl] at h
          exact Option.noConfusion h
  | x1 :: x2 :: ru =>
    simp only [List.cons_append]
    by_cases h92 : x1 = 92
    · subst h92
      by_cases h117 : x2 = 117
      · subst h117
        match ru with
        | a :: b :: c :: d :: t2 => rfl
        | [] => simp [parseStringBody.eq_def] at h
        | [a] => simp [parseStringBody.eq_def] at h
        | [a, b] => simp [parseStringBody.eq_def] at h
        | [a, b, c] => simp [parseStringBody.eq_def] at h
      · rw [nextLow_second_ne (ru ++ t) h117, nextLow_second_ne ru h117]
    · rw [nextLow_head_ne (x2 :: (ru ++ t)) h92, nextLow_head_ne (x2 :: ru) h92]

theorem parseStringBody_stable : ∀ {cs : List Nat} {s rest : List Nat} (t : List Nat),
    parseStringBody cs = some (s, rest) →
    parseStringBody (cs ++ t) = some (s, rest ++ t) := by
  intro cs
  induction cs using parseStringBody.induct with
  | case1 =>
    intro s rest t h
    rw [parseStringBody.eq_def] at h
    exact Option.noConfusion h
  | case2 r =>
    intro s rest t h
    rw [parseStringBody.eq_def] at h
    simp at h
    simp only [List.cons_append]
    rw [parseStringBody.eq_def]
    simp
    exact ⟨h.1, by rw [h.2]⟩
  | case3 =>
    intro s rest t h
    rw [parseStringBody.eq_def] at h
    dsimp only at h
    norm_num at h
    exact Option.noConfusion h
  | case4 a b c d t2 hhex =>
    intro s rest t h
    rw [parseStringBody.eq_def] at h
    dsimp only at h
    norm_num [hhex] at h
    exact Option.noConfusion h
  | case5 a b c d t2 u hhex hne ih =>
    intro s rest t h
    rw [parseStringBody.eq_def] at h
    dsimp only at h
    norm_num [hhex] at h
    obtain ⟨x, y, hp, heq⟩ := h
    have hihs := ih t hp
    have hnl := nextLow_stable t hp
    simp only [List.cons_append]
    rw [parseStringBody.eq_def]
    dsimp only
    norm_num [hhex]
    refine ⟨x, y ++ t, hihs, ?_⟩
    rw [hnl]
    by_cases hc : 55296 ≤ u ∧ u ≤ 56319 ∧ nextIsLowSurrEscape t2 = true
    · rw [if_pos hc] at heq ⊢
      rcases x with _ | ⟨u2, tl⟩
      · dsimp only at heq ⊢
        cases heq
        rfl
      · dsimp only at heq ⊢
        cases heq
        rfl
    · rw [if_neg hc] at heq ⊢
      cases heq
      rfl
  | case6 r hshape =>
    intro s rest t h
    rw [parseStringBody.eq_def] at h
    dsimp only at h
    match r, hshape with
    | [], _ => exact Option.noConfusion h
    | [a], _ => exact Option.noConfusion h
    | [a, b], _ => exact Option.noConfusion h
    | [a, b, c], _ => exact Option.noConfusion h
    | a :: b :: c :: d :: t2, hsh => exact absurd rfl (fun hx => hsh a b c d t2 hx)
  | case7 c r hne u2 hesc h92 ih =>
    intro s rest t h
    rw [parseStringBody.eq_def] at h
    dsimp only at h
    simp only [hesc] at h
    norm_num [hne] at h
    obtain ⟨x, hp, heq⟩ := h
    have hihs := ih t hp
    simp only [List.cons_append]
    rw [parseStringBody.eq_def]
    dsimp only
    simp only [hesc]
    norm_num [hne]
    exact ⟨x, hihs, heq⟩
  | case8 c r hne hesc h92 =>
    intro s rest t h
    rw [parseStringBody.eq_def] at h
    dsimp only at h
    simp only [hesc] at h
    norm_num [hne] at h
    exact Option.noConfusion h
  | case9 c r h34 h92 hlt =>
    intro s rest t h
    rw [parseStringBody.eq_def] at h
    norm_num [h34, h92, hlt] at h
    exact Option.noConfusion h
  | case10 c r h34 h92 hlt ih =>
    intro s rest t h
    rw [parseStringBody.eq_def] at h
    norm_num [h34, h92, hlt] at h
    obtain ⟨x, hp, heq⟩ := h
    have hihs := ih t hp
    simp only [List.cons_append]
    rw [parseStringBody.eq_def]
    dsimp only
    norm_num [h34, h92, hlt]
    exact ⟨x, hihs, heq⟩

/-- Characters that could extend (or re-enable an optional group of) a
number match; a number parse followed by any other character is
append-stable. -/
def numStop (c : Nat) : Bool :=
  !(isDigitC c || c = 46 || c = 101 || c = 69 || c = 43 || c = 45)

theorem parseIntPart_stable {cs ip r1 : List Nat} (t : List Nat)
    (h : parseIntPart cs = some (ip, r1)) (hne : r1 ≠ []) :
    parseIntPart (cs ++ t) = some (ip, r1 ++ t) := by
  match cs with
  | [] => simp [parseIntPart] at h
  | c :: rest =>
    rw [parseIntPart] at h
    rw [List.cons_append, parseIntPart]
    by_cases h48 : c = 48
    · rw [if_pos h48] at h ⊢
      simp only [Option.some.injEq, Prod.mk.injEq] at h
      rw [← h.1, ← h.2]
    · rw [if_neg h48] at h ⊢
      by_cases h19 : 49 ≤ c ∧ c ≤ 57
      · rw [if_pos h19] at h ⊢
        simp only [Option.some.injEq, Prod.mk.injEq] at h
        rcases hd : rest.dropWhile isDigitC with _ | ⟨c1, l⟩
        · rw [hd] at h
          exact absurd h.2.symm hne
        · rw [hd] at h
          rw [takeWhile_append_cons hd, dropWhile_append_cons hd]
          rw [← h.1, ← h.2]
          rfl
      · rw [if_neg h19] at h
        exact Option.noConfusion h

theorem parseIntPart_exists {cs : List Nat} {p : List Nat × List Nat} (t : List Nat)
    (h : parseIntPart cs = some p) : ∃ q, parseIntPart (cs ++ t) = some q := by
  match cs with
  | [] => simp [parseIntPart] at h
  | c :: rest =>
    rw [parseIntPart] at h
    rw [List.cons_append, parseIntPart]
    by_cases h48 : c = 48
    · rw [if_pos h48]
      exact ⟨_, rfl⟩
    · rw [if_neg h48] at h ⊢
      by_cases h19 : 49 ≤ c ∧ c ≤ 57
      · rw [if_pos h19]
        exact ⟨_, rfl⟩
      · rw [if_neg h19] at h
        exact Option.noConfusion h

theorem numStop_ne_e {c : Nat} (hstop : numStop c = true) : ¬(c = 101 ∨ c = 69) := by
  intro hor
  rcases hor with h | h <;> rw [h] at hstop <;> exact absurd hstop (by decide)

theorem parseExpPart_stable : ∀ (r2 t : List Nat) {c : Nat} {rr : List Nat},
    (parseExpPart r2).2 = c :: rr → numStop c = true →
    parseExpPart (r2 ++ t) = ((parseExpPart r2).1, (parseExpPart r2).2 ++ t) := by
  intro r2 t c rr hr hstop
  match r2 with
  | [] =>
    rw [show parseExpPart [] = ([], []) from rfl] at hr
    exact List.noConfusion hr
  | e :: r2' =>
    by_cases he : e = 101 ∨ e = 69
    · match r2' with
      | [] =>
        exfalso
        have hEX : parseExpPart [e] = ([], [e]) := by
          rw [parseExpPart.eq_def]
          dsimp only
          rw [if_pos he]
        rw [hEX] at hr
        dsimp only at hr
        injection hr with hce hrr
        rw [← hce] at hstop
        exact numStop_ne_e hstop he
      | s :: r2'' =>
        by_cases hs : s = 43 ∨ s = 45
        · by_cases hd : r2''.takeWhile isDigitC = []
          · exfalso
            have hEX : parseExpPart (e :: s :: r2'') = ([], e :: s :: r2'') := by
              rw [parseExpPart.eq_def]
              dsimp only
              rw [if_pos he, if_pos hs, if_pos hd]
            rw [hEX] at hr
            dsimp only at hr
            injection hr with hce hrr
            rw [← hce] at hstop
            exact numStop_ne_e hstop he
          · rcases hdw : r2''.dropWhile isDigitC with _ | ⟨cc, ll⟩
            · exfalso
              have hEX : parseExpPart (e :: s :: r2'') =
                  (e :: s :: r2''.takeWhile isDigitC, []) := by
                rw [parseExpPart.eq_def]
                dsimp only
                rw [if_pos he, if_pos hs, if_neg hd, hdw]
              rw [hEX] at hr
              exact List.noConfusion hr
            · have hEX : parseExpPart (e :: s :: r2'') =
                  (e :: s :: r2''.takeWhile isDigitC, cc :: ll) := by
                rw [parseExpPart.eq_def]
                dsimp only
                rw [if_pos he, if_pos hs, if_neg hd, hdw]
              rw [hEX]
              show parseExpPart (e :: s :: (r2'' ++ t)) = _
              rw [parseExpPart.eq_def]
              dsimp only
              rw [if_pos he, if_pos hs, takeWhile_append_cons hdw,
                dropWhile_append_cons hdw, if_neg hd]
              rfl
        · by_cases hd : (s :: r2'').takeWhile isDigitC = []
          · exfalso
            have hEX : parseExpPart (e :: s :: r2'') = ([], e :: s :: r2'') := by
              rw [parseExpPart.eq_def]
              dsimp only
              rw [if_pos he, if_neg hs, if_pos hd]
            rw [hEX] at hr
            dsimp only at hr
            injection hr with hce hrr
            rw [← hce] at hstop
            exact numStop_ne_e hstop he
          · rcases hdw : (s :: r2'').dropWhile isDigitC with _ | ⟨cc, ll⟩
            · exfalso
              have hEX : parseExpPart (e :: s :: r2'') =
                  (e :: (s :: r2'').takeWhile isDigitC, []) := by
                rw [parseExpPart.eq_def]
                dsimp only
                rw [if_pos he, if_neg hs, if_neg hd, hdw]
              rw [hEX] at hr
              exact List.noConfusion hr
            · have hEX : parseExpPart (e :: s :: r2'') =
                  (e :: (s :: r2'').takeWhile isDigitC, cc :: ll) := by
                rw [parseExpPart.eq_def]
                dsimp only
                rw [if_pos he, if_neg hs, if_neg hd, hdw]
              rw [hEX]
              show parseExpPart (e :: s :: (r2'' ++ t)) = _
              rw [parseExpPart.eq_def]
              dsimp only
              rw [if_pos he]
              rw [show s :: (r2'' ++ t) = (s :: r2'') ++ t from rfl]
              rw [if_neg hs, takeWhile_append_cons hdw, dropWhile_append_cons hdw,
                if_neg hd]
              rfl
    · have hEX : parseExpPart (e :: r2') = ([], e :: r2') := by
        rw [parseExpPart.eq_def]
        dsimp only
        rw [if_neg he]
      rw [hEX]
      show parseExpPart (e :: (r2' ++ t)) = _
      rw [parseExpPart.eq_def]
      dsimp only
      rw [if_neg he]
      rfl

theorem parseFracPart_stable : ∀ (r1 t : List Nat) {c : Nat} {rr : List Nat},
    (parseExpPart (parseFracPart r1).2).2 = c :: rr → numStop c = true →
    parseFracPart (r1 ++ t) = ((parseFracPart r1).1, (parseFracPart r1).2 ++ t) := by
  intro r1 t c rr hrst hstop
  match r1 with
  | [] =>
    rw [show parseFracPart [] = ([], []) from rfl] at hrst
    rw [show parseExpPart [] = ([], []) from rfl] at hrst
    exact List.noConfusion hrst
  | c1 :: r1' =>
    by_cases hc1 : c1 = 46
    · subst hc1
      by_cases hd : r1'.takeWhile isDigitC = []
      · have hFR : parseFracPart (46 :: r1') = ([], 46 :: r1') := by
          rw [parseFracPart]
          dsimp only
          rw [if_pos rfl, if_pos hd]
        match r1' with
        | [] =>
          exfalso
          rw [hFR] at hrst
          rw [show (parseExpPart ([], [46]).2) = ([], [46]) from rfl] at hrst
          dsimp only at hrst
          injection hrst with hce hrr
          rw [← hce] at hstop
          exact absurd hstop (by decide)
        | cb :: r1'' =>
          have hcb : isDigitC cb = false := by
            rcases hdig : isDigitC cb with _ | _
            · rfl
            · rw [List.takeWhile] at hd
              rw [hdig] at hd
              exact absurd hd (by simp)
          rw [hFR]
          show parseFracPart (46 :: (cb :: (r1'' ++ t))) = _
          rw [parseFracPart]
          dsimp only
          rw [if_pos rfl]
          rw [show (cb :: (r1'' ++ t)).takeWhile isDigitC = [] from by
            rw [List.takeWhile, hcb]]
          rw [if_pos rfl]
          rfl
      · rcases hdw : r1'.dropWhile isDigitC with _ | ⟨cc, ll⟩
        · exfalso
          have hFR : parseFracPart (46 :: r1') = (46 :: r1'.takeWhile isDigitC, []) := by
            rw [parseFracPart]
            dsimp only
            rw [if_pos rfl, if_neg hd, hdw]
          rw [hFR] at hrst
          rw [show (parseExpPart (46 :: r1'.takeWhile isDigitC, ([] : List Nat)).2) =
            ([], []) from rfl] at hrst
          exact List.noConfusion hrst
        · have hFR : parseFracPart (46 :: r1') =
              (46 :: r1'.takeWhile isDigitC, cc :: ll) := by
            rw [parseFracPart]
            dsimp only
            rw [if_pos rfl, if_neg hd, hdw]
          rw [hFR]
          show parseFracPart (46 :: (r1' ++ t)) = _
          rw [parseFracPart]
          dsimp only
          rw [if_pos rfl, takeWhile_append_cons hdw, dropWhile_append_cons hdw,
            if_neg hd]
          rfl
    · have hFR : parseFracPart (c1 :: r1') = ([], c1 :: r1') := by
        rw [parseFracPart]
        dsimp only
        rw [if_neg hc1]
      rw [hFR]
      show parseFracPart (c1 :: (r1' ++ t)) = _
      rw [parseFracPart]
      dsimp only
      rw [if_neg hc1]
      rfl

theorem parseNumCore_stable {ds lex rest : List Nat} (t : List Nat)
    (h : parseNumCore ds = some (lex, rest))
    (hc : ∃ c rr, rest = c :: rr ∧ numStop c = true) :
    parseNumCore (ds ++ t) = some (lex, rest ++ t) := by
  obtain ⟨c, rr, hrest, hstop⟩ := hc
  subst hrest
  rw [parseNumCore] at h
  rcases hip : parseIntPart ds with _ | ⟨ip, r1⟩
  · rw [hip] at h
    exact Option.noConfusion h
  · rw [hip] at h
    dsimp only at h
    simp only [Option.some.injEq, Prod.mk.injEq] at h
    obtain ⟨hlex, hrst⟩ := h
    have hr1ne : r1 ≠ [] := by
      intro h0
      rw [h0] at hrst
      rw [show parseFracPart [] = ([], []) from rfl] at hrst
      rw [show parseExpPart [] = ([], []) from rfl] at hrst
      exact List.noConfusion hrst
    have hint := parseIntPart_stable t hip hr1ne
    have hFRs := parseFracPart_stable r1 t hrst hstop
    have hEXs := parseExpPart_stable (parseFracPart r1).2 t hrst hstop
    rw [parseNumCore, hint]
    dsimp only
    rw [hFRs]
    dsimp only
    rw [hEXs]
    dsimp only
    rw [hlex, hrst]

theorem parseNumCore_exists {ds : List Nat} {p : List Nat × List Nat} (t : List Nat)
    (h : parseNumCore ds = some p) : ∃ q, parseNumCore (ds ++ t) = some q := by
  rw [parseNumCore] at h
  rcases hip : parseIntPart ds with _ | ⟨ip, r1⟩
  · rw [hip] at h
    exact Option.noConfusion h
  · obtain ⟨q, hq⟩ := parseIntPart_exists t hip
    rw [parseNumCore, hq]
    dsimp only
    exact ⟨_, rfl⟩

theorem parseNumber_stable {cs lex rest : List Nat} (t : List Nat)
    (h : parseNumber cs = some (lex, rest))
    (hc : ∃ c rr, rest = c :: rr ∧ numStop c = true) :
    parseNumber (cs ++ t) = some (lex, rest ++ t) := by
  match cs with
  | [] => simp [parseNumber] at h
  | c0 :: cr =>
    rw [parseNumber] at h
    rw [List.cons_append, parseNumber]
    by_cases h45 : c0 = 45
    · rw [if_pos h45] at h ⊢
      rcases hcore : parseNumCore cr with _ | ⟨lex2, rest2⟩
      · rw [hcore] at h
        exact Option.noConfusion h
      · rw [hcore] at h
        simp only [Option.map_some', Option.some.injEq, Prod.mk.injEq] at h
        have : rest2 = rest := h.2
        subst this
        have hcs := parseNumCore_stable t hcore hc
        rw [hcs]
        simp only [Option.map_some', Option.some.injEq, Prod.mk.injEq]
        exact ⟨h.1, trivial⟩
    · rw [if_neg h45] at h ⊢
      exact parseNumCore_stable t h hc

theorem parseNumber_exists {cs : List Nat} {p : List Nat × List Nat} (t : List Nat)
    (h : parseNumber cs = some p) : ∃ q, parseNumber (cs ++ t) = some q := by
  match cs with
  | [] => simp [parseNumber] at h
  | c0 :: cr =>
    rw [parseNumber] at h
    rw [List.cons_append, parseNumber]
    by_cases h45 : c0 = 45
    · rw [if_pos h45] at h ⊢
      rcases hcore : parseNumCore cr with _ | p2
      · rw [hcore] at h
        exact Option.noConfusion h
      · obtain ⟨q, hq⟩ := parseNumCore_exists t hcore
        rw [hq]
        exact ⟨_, rfl⟩
    · rw [if_neg h45] at h ⊢
      exact parseNumCore_exists t h

/-! ## Helpers for the scanner stability proof -/

theorem parseVal_nil (f : Nat) : parseVal f [] = none := by
  cases f <;> rfl

theorem parseFields_nil (f : Nat) (first : Bool) : parseFields f first [] = none := by
  cases f <;> rfl

theorem take_append_stable {cs lit : List Nat} {n : Nat} (t : List Nat)
    (h : cs.take n = lit) (hlen : lit.length = n) : (cs ++ t).take n = lit := by
  have hle : n ≤ cs.length := by
    have : (cs.take n).length = min n cs.length := by simp
    rw [h, hlen] at this
    omega
  rw [List.take_append_of_le_length hle, h]

theorem drop_append_stable {cs lit : List Nat} {n : Nat} (t : List Nat)
    (h : cs.take n = lit) (hlen : lit.length = n) :
    (cs ++ t).drop n = cs.drop n ++ t := by
  have hle : n ≤ cs.length := by
    have : (cs.take n).length = min n cs.length := by simp
    rw [h, hlen] at this
    omega
  rw [List.drop_append_of_le_length hle]

theorem take_head {c x n : Nat} {l lr : List Nat}
    (h : (c :: l).take (n + 1) = x :: lr) : c = x := by
  rw [show (c :: l).take (n + 1) = c :: l.take n from rfl] at h
  exact (List.cons.injEq c _ x lr).mp h |>.1

theorem parseNumber_head {c : Nat} {cr : List Nat} {p : List Nat × List Nat}
    (h : parseNumber (c :: cr) = some p) : c = 45 ∨ isDigitC c = true := by
  rw [parseNumber] at h
  by_cases h45 : c = 45
  · exact Or.inl h45
  · rw [if_neg h45] at h
    rw [parseNumCore] at h
    rcases hip : parseIntPart (c :: cr) with _ | q
    · rw [hip] at h
      exact Option.noConfusion h
    · rw [parseIntPart] at hip
      by_cases h48 : c = 48
      · right
        rw [h48]
        rfl
      · rw [if_neg h48] at hip
        by_cases h19 : 49 ≤ c ∧ c ≤ 57
        · right
          rw [isDigitC]
          simp only [Bool.and_eq_true, decide_eq_true_eq]
          omega
        · rw [if_neg h19] at hip
          exact Option.noConfusion hip

theorem parseNumber_none_stable {c : Nat} {cr : List Nat} (t : List Nat)
    (h : parseNumber (c :: cr) = none) (hside : c ≠ 45 ∨ cr ≠ []) :
    parseNumber ((c :: cr) ++ t) = none := by
  rw [parseNumber] at h
  rw [List.cons_append, parseNumber]
  by_cases h45 : c = 45
  · rw [if_pos h45] at h ⊢
    match cr, hside with
    | [], hside => exact absurd h45 (hside.resolve_right (fun hx => hx rfl))
    | ch :: cr', _ =>
      rcases hcore : parseNumCore (ch :: cr') with _ | q
      · rw [hcore] at h
        rw [parseNumCore] at hcore
        rcases hip : parseIntPart (ch :: cr') with _ | q2
        · rw [parseIntPart] at hip
          by_cases h48 : ch = 48
          · rw [if_pos h48] at hip
            exact Option.noConfusion hip
          · rw [if_neg h48] at hip
            by_cases h19 : 49 ≤ ch ∧ ch ≤ 57
            · rw [if_pos h19] at hip
              exact Option.noConfusion hip
            · rw [List.cons_append, parseNumCore, parseIntPart, if_neg h48,
                if_neg h19]
              rfl
        · rw [hip] at hcore
          dsimp only at hcore
          exact Option.noConfusion hcore
      · rw [hcore] at h
        simp at h
  · rw [if_neg h45] at h ⊢
    rw [parseNumCore] at h
    rcases hip : parseIntPart (c :: cr) with _ | q2
    · rw [parseIntPart] at hip
      by_cases h48 : c = 48
      · rw [if_pos h48] at hip
        exact Option.noConfusion hip
      · rw [if_neg h48] at hip
        by_cases h19 : 49 ≤ c ∧ c ≤ 57
        · rw [if_pos h19] at hip
          exact Option.noConfusion hip
        · rw [parseNumCore]
          rw [show parseIntPart (c :: (cr ++ t)) =
            (if c = 48 then some ([48], cr ++ t)
             else if 49 ≤ c ∧ c ≤ 57 then
               some (c :: (cr ++ t).takeWhile isDigitC, (cr ++ t).dropWhile isDigitC)
             else none) from by rw [parseIntPart]]
          rw [if_neg h48, if_neg h19]
    · rw [hip] at h
      dsimp only at h
      exact Option.noConfusion h

theorem isJsonWs_numStop {h : Nat} (hws : isJsonWs h = true) : numStop h = true := by
  rw [isJsonWs] at hws
  simp only [Bool.or_eq_true, decide_eq_true_eq] at hws
  rcases hws with ((h1 | h1) | h1) | h1 <;> rw [h1] <;> decide

theorem stop_of_skipWs {r3 : List Nat} {c3 : Nat} {r4 : List Nat}
    (hw : skipWs r3 = c3 :: r4) (hc3 : numStop c3 = true) :
    ∃ c rr, r3 = c :: rr ∧ numStop c = true := by
  match r3 with
  | [] => exact absurd hw (by simp [skipWs, List.dropWhile])
  | h :: tl =>
    rcases hws : isJsonWs h with _ | _
    · rw [skipWs_cons_of_head hws] at hw
      injection hw with h1 h2
      exact ⟨h, tl, rfl, by rw [h1]; exact hc3⟩
    · exact ⟨h, tl, rfl, isJsonWs_numStop hws⟩

/-- The condition under which a parsed value is append-stable: numbers
need a halting character right after the match; everything else is
self-delimiting. -/
def valStable : JVal → List Nat → Prop
  | .num _, rest => ∃ c rr, rest = c :: rr ∧ numStop c = true
  | _, _ => True

theorem parseStable : ∀ f : Nat,
    (∀ (cs t : List Nat) (v : JVal) (rest : List Nat),
      parseVal f cs = some (v, rest) → valStable v rest →
      parseVal f (cs ++ t) = some (v, rest ++ t)) ∧
    (∀ (first : Bool) (cs t : List Nat) (fs : List (List Nat × JVal)) (rest : List Nat),
      parseFields f first cs = some (fs, rest) →
      parseFields f first (cs ++ t) = some (fs, rest ++ t)) ∧
    (∀ (first : Bool) (cs t : List Nat) (vs : List JVal) (rest : List Nat),
      parseElems f first cs = some (vs, rest) →
      parseElems f first (cs ++ t) = some (vs, rest ++ t)) := by
  intro f
  induction f with
  | zero =>
    refine ⟨?_, ?_, ?_⟩
    · intro cs t v rest h _
      rw [parseVal.eq_def] at h
      dsimp only at h
      exact Option.noConfusion h
    · intro first cs t fs rest h
      rw [parseFields.eq_def] at h
      dsimp only at h
      exact Option.noConfusion h
    · intro first cs t vs rest h
      rw [parseElems.eq_def] at h
      dsimp only at h
      exact Option.noConfusion h
  | succ f ih =>
    obtain ⟨ihV, ihF, ihE⟩ := ih
    refine ⟨?_, ?_, ?_⟩
    · -- parseVal
      intro cs t v rest h hvs
      match cs with
      | [] =>
        rw [parseVal_nil] at h
        exact Option.noConfusion h
      | c :: cr =>
        rw [parseVal.eq_def] at h
        dsimp only at h
        rw [List.cons_append, parseVal.eq_def]
        dsimp only
        by_cases h34 : c = 34
        · rw [if_pos h34] at h ⊢
          rcases hp : parseStringBody cr with _ | ⟨sv, sr⟩
          · rw [hp] at h
            exact Option.noConfusion h
          · rw [hp] at h
            simp only [Option.map_some', Option.some.injEq, Prod.mk.injEq] at h
            obtain ⟨e1, e2⟩ := h
            subst e1
            subst e2
            have := parseStringBody_stable t hp
            rw [this]
            rfl
        · rw [if_neg h34] at h ⊢
          by_cases h123 : c = 123
          · rw [if_pos h123] at h ⊢
            rcases hw : skipWs cr with _ | ⟨c2, l⟩
            · rw [hw, parseFields_nil] at h
              exact Option.noConfusion h
            · rw [hw] at h
              rcases hp : parseFields f true (c2 :: l) with _ | ⟨fs2, fr2⟩
              · rw [hp] at h
                exact Option.noConfusion h
              · rw [hp] at h
                simp only [Option.map_some', Option.some.injEq, Prod.mk.injEq] at h
                obtain ⟨e1, e2⟩ := h
                subst e1
                subst e2
                rw [skipWs_append_cons hw]
                have := ihF true (c2 :: l) t fs2 fr2 hp
                rw [List.cons_append] at this
                rw [this]
                rfl
          · rw [if_neg h123] at h ⊢
            by_cases h91 : c = 91
            · rw [if_pos h91] at h ⊢
              rcases hp : parseElems f true cr with _ | ⟨vs2, vr2⟩
              · rw [hp] at h
                exact Option.noConfusion h
              · rw [hp] at h
                simp only [Option.map_some', Option.some.injEq, Prod.mk.injEq] at h
                obtain ⟨e1, e2⟩ := h
                subst e1
                subst e2
                have := ihE true cr t vs2 vr2 hp
                rw [this]
                rfl
            · rw [if_neg h91] at h ⊢
              by_cases hnul : (c :: cr).take 4 = nullLit
              · have hg : (c :: (cr ++ t)).take 4 = nullLit := by
                  rw [← List.cons_append]
                  exact take_append_stable t hnul rfl
                have hgd : (c :: (cr ++ t)).drop 4 = (c :: cr).drop 4 ++ t := by
                  rw [← List.cons_append]
                  exact drop_append_stable t hnul rfl
                rw [if_pos hnul] at h
                rw [if_pos hg, hgd]
                simp only [Option.some.injEq, Prod.mk.injEq] at h
                obtain ⟨e1, e2⟩ := h
                subst e1
                subst e2
                rfl
              · rw [if_neg hnul] at h
                by_cases htr : (c :: cr).take 4 = trueLit
                · have hc : c = 116 := take_head htr
                  have hg : (c :: (cr ++ t)).take 4 = trueLit := by
                    rw [← List.cons_append]
                    exact take_append_stable t htr rfl
                  have hgd : (c :: (cr ++ t)).drop 4 = (c :: cr).drop 4 ++ t := by
                    rw [← List.cons_append]
                    exact drop_append_stable t htr rfl
                  rw [if_neg (show ¬(c :: (cr ++ t)).take 4 = nullLit from fun hx => by
                            have := take_head hx
                            omega)]
                  rw [if_pos htr] at h
                  rw [if_pos hg, hgd]
                  simp only [Option.some.injEq, Prod.mk.injEq] at h
                  obtain ⟨e1, e2⟩ := h
                  subst e1
                  subst e2
                  rfl
                · rw [if_neg htr] at h
                  by_cases hfa : (c :: cr).take 5 = falseLit
                  · have hc : c = 102 := take_head hfa
                    have hg : (c :: (cr ++ t)).take 5 = falseLit := by
                      rw [← List.cons_append]
                      exact take_append_stable t hfa rfl
                    have hgd : (c :: (cr ++ t)).drop 5 = (c :: cr).drop 5 ++ t := by
                      rw [← List.cons_append]
                      exact drop_append_stable t hfa rfl
                    rw [if_neg (show ¬(c :: (cr ++ t)).take 4 = nullLit from fun hx => by
                            have := take_head hx
                            omega)]
                    rw [if_neg (show ¬(c :: (cr ++ t)).take 4 = trueLit from fun hx => by
                            have := take_head hx
                            omega)]
                    rw [if_pos hfa] at h
                    rw [if_pos hg, hgd]
                    simp only [Option.some.injEq, Prod.mk.injEq] at h
                    obtain ⟨e1, e2⟩ := h
                    subst e1
                    subst e2
                    rfl
                  · rw [if_neg hfa] at h
                    rcases hn : parseNumber (c :: cr) with _ | ⟨nlex, nrest⟩
                    · -- keyword constants after a failed number match
                      rw [hn] at h
                      by_cases hna : (c :: cr).take 3 = nanLit
                      · have hc : c = 78 := take_head hna
                        have hg : (c :: (cr ++ t)).take 3 = nanLit := by
                          rw [← List.cons_append]
                          exact take_append_stable t hna rfl
                        have hgd : (c :: (cr ++ t)).drop 3 = (c :: cr).drop 3 ++ t := by
                          rw [← List.cons_append]
                          exact drop_append_stable t hna rfl
                        rw [if_neg (show ¬(c :: (cr ++ t)).take 4 = nullLit from fun hx => by
                            have := take_head hx
                            omega)]
                        rw [if_neg (show ¬(c :: (cr ++ t)).take 4 = trueLit from fun hx => by
                            have := take_head hx
                            omega)]
                        rw [if_neg (show ¬(c :: (cr ++ t)).take 5 = falseLit from fun hx => by
                            have := take_head hx
                            omega)]
                        have hnone : parseNumber (c :: (cr ++ t)) = none := by
                          rw [← List.cons_append]
                          exact parseNumber_none_stable t hn (Or.inl (by omega))
                        rw [hnone]
                        rw [if_pos hna] at h
                        rw [if_pos hg, hgd]
                        simp only [Option.some.injEq, Prod.mk.injEq] at h
                        obtain ⟨e1, e2⟩ := h
                        subst e1
                        subst e2
                        rfl
                      · rw [if_neg hna] at h
                        by_cases hin : (c :: cr).take 8 = infLit
                        · have hc : c = 73 := take_head hin
                          have hg : (c :: (cr ++ t)).take 8 = infLit := by
                            rw [← List.cons_append]
                            exact take_append_stable t hin rfl
                          have hgd : (c :: (cr ++ t)).drop 8 =
                              (c :: cr).drop 8 ++ t := by
                            rw [← List.cons_append]
                            exact drop_append_stable t hin rfl
                          rw [if_neg (show ¬(c :: (cr ++ t)).take 4 = nullLit from fun hx => by
                            have := take_head hx
                            omega)]
                          rw [if_neg (show ¬(c :: (cr ++ t)).take 4 = trueLit from fun hx => by
                            have := take_head hx
                            omega)]
                          rw [if_neg (show ¬(c :: (cr ++ t)).take 5 = falseLit from fun hx => by
                            have := take_head hx
                            omega)]
                          have hnone : parseNumber (c :: (cr ++ t)) = none := by
                            rw [← List.cons_append]
                            exact parseNumber_none_stable t hn (Or.inl (by omega))
                          rw [hnone]
                          rw [if_neg (show ¬(c :: (cr ++ t)).take 3 = nanLit from fun hx => by
                            have := take_head hx
                            omega)]
                          rw [if_pos hin] at h
                          rw [if_pos hg, hgd]
                          simp only [Option.some.injEq, Prod.mk.injEq] at h
                          obtain ⟨e1, e2⟩ := h
                          subst e1
                          subst e2
                          rfl
                        · rw [if_neg hin] at h
                          by_cases hni : (c :: cr).take 9 = neginfLit
                          · have hc : c = 45 := take_head hni
                            have hcr : cr ≠ [] := by
                              intro h0
                              subst h0
                              have : ([c] : List Nat).take 9 = [c] := by
                                simp
                              rw [this] at hni
                              exact List.noConfusion ((List.cons.injEq _ _ _ _).mp
                                hni).2
                            have hg : (c :: (cr ++ t)).take 9 = neginfLit := by
                              rw [← List.cons_append]
                              exact take_append_stable t hni rfl
                            have hgd : (c :: (cr ++ t)).drop 9 =
                                (c :: cr).drop 9 ++ t := by
                              rw [← List.cons_append]
                              exact drop_append_stable t hni rfl
                            rw [if_neg (show ¬(c :: (cr ++ t)).take 4 = nullLit from fun hx => by
                            have := take_head hx
                            omega)]
                            rw [if_neg (show ¬(c :: (cr ++ t)).take 4 = trueLit from fun hx => by
                            have := take_head hx
                            omega)]
                            rw [if_neg (show ¬(c :: (cr ++ t)).take 5 = falseLit from fun hx => by
                            have := take_head hx
                            omega)]
                            have hnone : parseNumber (c :: (cr ++ t)) = none := by
                              rw [← List.cons_append]
                              exact parseNumber_none_stable t hn (Or.inr hcr)
                            rw [hnone]
                            rw [if_neg (show ¬(c :: (cr ++ t)).take 3 = nanLit from fun hx => by
                            have := take_head hx
                            omega)]
                            rw [if_neg (show ¬(c :: (cr ++ t)).take 8 = infLit from fun hx => by
                            have := take_head hx
                            omega)]
                            rw [if_pos hni] at h
                            rw [if_pos hg, hgd]
                            simp only [Option.some.injEq, Prod.mk.injEq] at h
                            obtain ⟨e1, e2⟩ := h
                            subst e1
                            subst e2
                            rfl
                          · rw [if_neg hni] at h
                            exact Option.noConfusion h
                    · -- the number branch
                      rw [hn] at h
                      simp only [Option.some.injEq, Prod.mk.injEq] at h
                      obtain ⟨e1, e2⟩ := h
                      subst e1
                      subst e2
                      have hhead := parseNumber_head hn
                      have hcne : c ≠ 110 ∧ c ≠ 116 ∧ c ≠ 102 := by
                        rcases hhead with h45 | hdg
                        · omega
                        · rw [isDigitC] at hdg
                          simp only [Bool.and_eq_true, decide_eq_true_eq] at hdg
                          omega
                      rw [if_neg (show ¬(c :: (cr ++ t)).take 4 = nullLit from
                        fun hx => absurd (take_head hx) hcne.1)]
                      rw [if_neg (show ¬(c :: (cr ++ t)).take 4 = trueLit from
                        fun hx => absurd (take_head hx) hcne.2.1)]
                      rw [if_neg (show ¬(c :: (cr ++ t)).take 5 = falseLit from
                        fun hx => absurd (take_head hx) hcne.2.2)]
                      have hnum := parseNumber_stable t hn hvs
                      rw [List.cons_append] at hnum
                      rw [hnum]
    · -- parseFields
      intro first cs t fs rest h
      match cs with
      | [] =>
        rw [parseFields_nil] at h
        exact Option.noConfusion h
      | c :: cr =>
        rw [parseFields.eq_def] at h
        dsimp only at h
        rw [List.cons_append, parseFields.eq_def]
        dsimp only
        by_cases hcl : first = true ∧ c = 125
        · rw [if_pos hcl] at h ⊢
          simp only [Option.some.injEq, Prod.mk.injEq] at h
          obtain ⟨e1, e2⟩ := h
          subst e1
          subst e2
          rfl
        · rw [if_neg hcl] at h ⊢
          by_cases h34 : c = 34
          · rw [if_pos h34] at h ⊢
            rcases hk : parseStringBody cr with _ | ⟨key, r1⟩
            · rw [hk] at h
              exact Option.noConfusion h
            · rw [hk] at h
              dsimp only at h
              rw [parseStringBody_stable t hk]
              dsimp only
              rcases hw1 : skipWs r1 with _ | ⟨c2, r2⟩
              · rw [hw1] at h
                exact Option.noConfusion h
              · rw [hw1] at h
                rw [skipWs_append_cons hw1]
                dsimp only at h ⊢
                by_cases h58 : c2 = 58
                · rw [if_pos h58] at h ⊢
                  rcases hw15 : skipWs r2 with _ | ⟨c4, r5⟩
                  · rw [hw15, parseVal_nil] at h
                    exact Option.noConfusion h
                  · rw [hw15] at h
                    rw [skipWs_append_cons hw15]
                    rcases hv : parseVal f (c4 :: r5) with _ | ⟨v2, r3⟩
                    · rw [hv] at h
                      exact Option.noConfusion h
                    · rw [hv] at h
                      dsimp only at h
                      rcases hw2 : skipWs r3 with _ | ⟨c3, r4⟩
                      · rw [hw2] at h
                        exact Option.noConfusion h
                      · rw [hw2] at h
                        dsimp only at h
                        by_cases hc3 : c3 = 125
                        · rw [if_pos hc3] at h
                          have hvstab : valStable v2 r3 := by
                            cases v2 <;> try trivial
                            exact stop_of_skipWs hw2 (by rw [hc3]; decide)
                          have hV := ihV (c4 :: r5) t v2 r3 hv hvstab
                          rw [List.cons_append] at hV
                          rw [hV]
                          dsimp only
                          rw [skipWs_append_cons hw2]
                          dsimp only
                          rw [if_pos hc3]
                          simp only [Option.some.injEq, Prod.mk.injEq] at h
                          obtain ⟨e1, e2⟩ := h
                          subst e1
                          subst e2
                          rfl
                        · rw [if_neg hc3] at h
                          by_cases hc4 : c3 = 44
                          · rw [if_pos hc4] at h
                            have hvstab : valStable v2 r3 := by
                              cases v2 <;> try trivial
                              exact stop_of_skipWs hw2 (by rw [hc4]; decide)
                            have hV := ihV (c4 :: r5) t v2 r3 hv hvstab
                            rw [List.cons_append] at hV
                            rw [hV]
                            dsimp only
                            rw [skipWs_append_cons hw2]
                            dsimp only
                            rw [if_neg hc3, if_pos hc4]
                            rcases hw3 : skipWs r4 with _ | ⟨c5, r6⟩
                            · rw [hw3, parseFields_nil] at h
                              exact Option.noConfusion h
                            · rw [hw3] at h
                              rw [skipWs_append_cons hw3]
                              rcases hfr : parseFields f false (c5 :: r6) with _ | ⟨fs2, fr2⟩
                              · rw [hfr] at h
                                exact Option.noConfusion h
                              · rw [hfr] at h
                                simp only [Option.map_some', Option.some.injEq,
                                  Prod.mk.injEq] at h
                                obtain ⟨e1, e2⟩ := h
                                subst e1
                                subst e2
                                have hF := ihF false (c5 :: r6) t fs2 fr2 hfr
                                rw [List.cons_append] at hF
                                rw [hF]
                                rfl
                          · rw [if_neg hc4] at h
                            exact Option.noConfusion h
                · rw [if_neg h58] at h
                  exact Option.noConfusion h
          · rw [if_neg h34] at h
            exact Option.noConfusion h
    · -- parseElems
      intro first cs t vs rest h
      rw [parseElems.eq_def] at h
      dsimp only at h
      rw [parseElems.eq_def]
      dsimp only
      rcases hw : skipWs cs with _ | ⟨c, cr⟩
      · rw [hw] at h
        exact Option.noConfusion h
      · rw [hw] at h
        rw [skipWs_append_cons hw]
        dsimp only at h ⊢
        by_cases hbr : first = true ∧ c = 93
        · rw [if_pos hbr] at h ⊢
          simp only [Option.some.injEq, Prod.mk.injEq] at h
          obtain ⟨e1, e2⟩ := h
          subst e1
          subst e2
          rfl
        · rw [if_neg hbr] at h ⊢
          rcases hv : parseVal f (c :: cr) with _ | ⟨v2, r1⟩
          · rw [hv] at h
            exact Option.noConfusion h
          · rw [hv] at h
            dsimp only at h
            rcases hw2 : skipWs r1 with _ | ⟨c2, r2⟩
            · rw [hw2] at h
              exact Option.noConfusion h
            · rw [hw2] at h
              dsimp only at h
              by_cases hc2 : c2 = 93
              · rw [if_pos hc2] at h
                have hvstab : valStable v2 r1 := by
                  cases v2 <;> try trivial
                  exact stop_of_skipWs hw2 (by rw [hc2]; decide)
                have hV := ihV (c :: cr) t v2 r1 hv hvstab
                rw [List.cons_append] at hV
                rw [hV]
                dsimp only
                rw [skipWs_append_cons hw2]
                dsimp only
                rw [if_pos hc2]
                simp only [Option.some.injEq, Prod.mk.injEq] at h
                obtain ⟨e1, e2⟩ := h
                subst e1
                subst e2
                rfl
              · rw [if_neg hc2] at h
                by_cases hc3 : c2 = 44
                · rw [if_pos hc3] at h
                  have hvstab : valStable v2 r1 := by
                    cases v2 <;> try trivial
                    exact stop_of_skipWs hw2 (by rw [hc3]; decide)
                  have hV := ihV (c :: cr) t v2 r1 hv hvstab
                  rw [List.cons_append] at hV
                  rw [hV]
                  dsimp only
                  rw [skipWs_append_cons hw2]
                  dsimp only
                  rw [if_neg hc2, if_pos hc3]
                  rcases he : parseElems f false r2 with _ | ⟨vs2, vr2⟩
                  · rw [he] at h
                    exact Option.noConfusion h
                  · rw [he] at h
                    simp only [Option.map_some', Option.some.injEq,
                      Prod.mk.injEq] at h
                    obtain ⟨e1, e2⟩ := h
                    subst e1
                    subst e2
                    have hE := ihE false r2 t vs2 vr2 he
                    rw [hE]
                    rfl
                · rw [if_neg hc3] at h
                  exact Option.noConfusion h

theorem rawDecode_stable {cs t rest : List Nat} {v : JVal}
    (h : rawDecode cs = some (v, rest)) (hv : valStable v rest) :
    rawDecode (cs ++ t) = some (v, rest ++ t) := by
  rw [rawDecode] at h ⊢
  have hle : 2 * cs.length + 2 ≤ 2 * (cs ++ t).length + 2 := by
    simp [List.length_append]
  have h2 := parseVal_mono hle h
  exact (parseStable (2 * (cs ++ t).length + 2)).1 cs t v rest h2 hv

theorem rawDecode_num_stable {cs t lex rest : List Nat}
    (h : rawDecode cs = some (.num lex, rest)) :
    ∃ lex2 rest2, rawDecode (cs ++ t) = some (.num lex2, rest2) := by
  rw [rawDecode] at h
  match cs, h with
  | c :: cr, h =>
    rw [show (2 * (c :: cr).length + 2) = (2 * (c :: cr).length + 1) + 1 from rfl] at h
    rw [parseVal.eq_def] at h
    dsimp only at h
    -- walk the branches: only the number branch yields a numeric value
    by_cases h34 : c = 34
    · rw [if_pos h34] at h
      exfalso
      rcases hp : parseStringBody cr with _ | p
      · rw [hp] at h
        exact Option.noConfusion h
      · rw [hp] at h
        simp only [Option.map_some', Option.some.injEq, Prod.mk.injEq] at h
        exact JVal.noConfusion h.1
    · rw [if_neg h34] at h
      by_cases h123 : c = 123
      · rw [if_pos h123] at h
        exfalso
        rcases hp : parseFields (2 * (c :: cr).length + 1) true (skipWs cr) with _ | p
        · rw [hp] at h
          exact Option.noConfusion h
        · rw [hp] at h
          simp only [Option.map_some', Option.some.injEq, Prod.mk.injEq] at h
          exact JVal.noConfusion h.1
      · rw [if_neg h123] at h
        by_cases h91 : c = 91
        · rw [if_pos h91] at h
          exfalso
          rcases hp : parseElems (2 * (c :: cr).length + 1) true cr with _ | p
          · rw [hp] at h
            exact Option.noConfusion h
          · rw [hp] at h
            simp only [Option.map_some', Option.some.injEq, Prod.mk.injEq] at h
            exact JVal.noConfusion h.1
        · rw [if_neg h91] at h
          by_cases hnul : (c :: cr).take 4 = nullLit
          · rw [if_pos hnul] at h
            simp only [Option.some.injEq, Prod.mk.injEq] at h
            exact absurd h.1 (fun hx => JVal.noConfusion hx)
          · rw [if_neg hnul] at h
            by_cases htr : (c :: cr).take 4 = trueLit
            · rw [if_pos htr] at h
              simp only [Option.some.injEq, Prod.mk.injEq] at h
              exact absurd h.1 (fun hx => JVal.noConfusion hx)
            · rw [if_neg htr] at h
              by_cases hfa : (c :: cr).take 5 = falseLit
              · rw [if_pos hfa] at h
                simp only [Option.some.injEq, Prod.mk.injEq] at h
                exact absurd h.1 (fun hx => JVal.noConfusion hx)
              · rw [if_neg hfa] at h
                rcases hn : parseNumber (c :: cr) with _ | p
                · rw [hn] at h
                  exfalso
                  by_cases hna : (c :: cr).take 3 = nanLit
                  · rw [if_pos hna] at h
                    simp only [Option.some.injEq, Prod.mk.injEq] at h
                    exact JVal.noConfusion h.1
                  · rw [if_neg hna] at h
                    by_cases hin : (c :: cr).take 8 = infLit
                    · rw [if_pos hin] at h
                      simp only [Option.some.injEq, Prod.mk.injEq] at h
                      exact JVal.noConfusion h.1
                    · rw [if_neg hin] at h
                      by_cases hni : (c :: cr).take 9 = neginfLit
                      · rw [if_pos hni] at h
                        simp only [Option.some.injEq, Prod.mk.injEq] at h
                        exact JVal.noConfusion h.1
                      · rw [if_neg hni] at h
                        exact Option.noConfusion h
                · -- number branch: on the appended input the number also matches
                  obtain ⟨q, hq⟩ := parseNumber_exists t hn
                  have hhead := parseNumber_head hn
                  have hcne : c ≠ 110 ∧ c ≠ 116 ∧ c ≠ 102 := by
                    rcases hhead with h45 | hdg
                    · omega
                    · rw [isDigitC] at hdg
                      simp only [Bool.and_eq_true, decide_eq_true_eq] at hdg
                      omega
                  refine ⟨q.1, q.2, ?_⟩
                  rw [rawDecode]
                  rw [show (2 * ((c :: cr) ++ t).length + 2) =
                    (2 * ((c :: cr) ++ t).length + 1) + 1 from rfl]
                  rw [List.cons_append, parseVal.eq_def]
                  dsimp only
                  rw [if_neg h34, if_neg h123, if_neg h91]
                  rw [if_neg (show ¬(c :: (cr ++ t)).take 4 = nullLit from
                    fun hx => absurd (take_head hx) hcne.1)]
                  rw [if_neg (show ¬(c :: (cr ++ t)).take 4 = trueLit from
                    fun hx => absurd (take_head hx) hcne.2.1)]
                  rw [if_neg (show ¬(c :: (cr ++ t)).take 5 = falseLit from
                    fun hx => absurd (take_head hx) hcne.2.2)]
                  rw [List.cons_append] at hq
                  rw [hq]

theorem valStable_of_alive {v : JVal} {ds : List JVal}
    (h : extractDoc v = (ds, false)) (rest : List Nat) : valStable v rest := by
  cases v with
  | num lex =>
    exfalso
    have hx : extractDoc (.num lex) = ([], true) := rfl
    rw [hx] at h
    exact Bool.noConfusion (congrArg Prod.snd h)
  | null => exact trivial
  | bool b => exact trivial
  | nanV => exact trivial
  | infV => exact trivial
  | neginfV => exact trivial
  | str s => exact trivial
  | arr l => exact trivial
  | obj f => exact trivial

theorem valStable_or_num (v : JVal) (rest : List Nat) :
    valStable v rest ∨ ∃ lex, v = .num lex := by
  cases v <;> first | exact Or.inr ⟨_, rfl⟩ | exact Or.inl trivial

theorem drain_congr {a b : List Nat} (hab : skipWs a = skipWs b) :
    drain a = drain b := by
  rw [drain_eq a, drain_eq b, hab]

/-- Feeding more bytes after a drained buffer: if the drain stayed alive,
draining the extended buffer emits the old deltas followed by whatever the
residual-plus-extension drains to; if the drain died, the extended buffer
emits exactly the same deltas and dies as well. -/
theorem drain_append : ∀ (n : Nat) (buf : List Nat), buf.length ≤ n →
    ∀ t : List Nat,
    ((drain buf).2.2 = true →
      drain (buf ++ t) =
        ((drain buf).1 ++ (drain ((drain buf).2.1 ++ t)).1,
         (drain ((drain buf).2.1 ++ t)).2.1,
         (drain ((drain buf).2.1 ++ t)).2.2)) ∧
    ((drain buf).2.2 = false →
      (drain (buf ++ t)).1 = (drain buf).1 ∧
      (drain (buf ++ t)).2.2 = false) := by
  intro n
  induction n with
  | zero =>
    intro buf hn t
    have hbuf : buf = [] := List.length_eq_zero.mp (Nat.le_zero.mp hn)
    subst hbuf
    refine ⟨fun _ => ?_, fun hdead => Bool.noConfusion hdead⟩
    have hdb : drain ([] : List Nat) = ([], [], true) := rfl
    rw [hdb]
    dsimp only
    rw [List.nil_append, List.nil_append]
  | succ n ihn =>
    intro buf hn t
    by_cases hb : skipWs buf = []
    · -- all-whitespace buffer: residual is empty, drain restarts on `t`
      have hdb : drain buf = ([], [], true) := by rw [drain_eq, if_pos hb]
      refine ⟨fun _ => ?_, fun hdead => ?_⟩
      · rw [hdb]
        dsimp only
        rw [List.nil_append, List.nil_append]
        have hx : drain (buf ++ t) = drain t := by
          apply drain_congr
          rw [skipWs_append_nil hb]
        rw [hx]
      · rw [hdb] at hdead
        exact Bool.noConfusion hdead
    · obtain ⟨c, l, hcl⟩ : ∃ c l, skipWs buf = c :: l := by
        rcases hsw : skipWs buf with _ | ⟨c, l⟩
        · exact absurd hsw hb
        · exact ⟨c, l, rfl⟩
      have hsw2 : skipWs (buf ++ t) = c :: (l ++ t) := skipWs_append_cons hcl t
      have hchd : isJsonWs c = false := skipWs_head hcl
      rcases hd : rawDecode (skipWs buf) with _ | ⟨v, rest⟩
      · -- stalled alive: residual is the stripped buffer itself
        have hdb : drain buf = ([], skipWs buf, true) := by
          rw [drain_eq, if_neg hb, hd]
        refine ⟨fun _ => ?_, fun hdead => ?_⟩
        · rw [hdb]
          dsimp only
          rw [List.nil_append]
          have hx : drain (buf ++ t) = drain (skipWs buf ++ t) := by
            apply drain_congr
            rw [hsw2, hcl, List.cons_append, skipWs_cons_of_head hchd]
          rw [hx]
        · rw [hdb] at hdead
          exact Bool.noConfusion hdead
      · have hd' : rawDecode (c :: l) = some (v, rest) := by
          rw [← hcl]
          exact hd
        have hrest_len : rest.length ≤ n := by
          have h1 := rawDecode_len hd
          have h2 := skipWs_le buf
          omega
        rcases he : extractDoc v with ⟨ds, died⟩
        rcases died with _ | _
        · -- the document extracted alive: recurse on the remainder
          have hstab : valStable v rest := valStable_of_alive he rest
          have hd2 : rawDecode (c :: (l ++ t)) = some (v, rest ++ t) := by
            have := rawDecode_stable (t := t) hd' hstab
            rw [List.cons_append] at this
            exact this
          have hdb : drain buf =
              (ds ++ (drain rest).1, (drain rest).2.1, (drain rest).2.2) := by
            rw [drain_eq, if_neg hb, hd]
            dsimp only
            rw [he]
          have hdstep : drain (buf ++ t) =
              (ds ++ (drain (rest ++ t)).1, (drain (rest ++ t)).2.1,
               (drain (rest ++ t)).2.2) := by
            rw [drain_eq, hsw2, if_neg (List.cons_ne_nil c (l ++ t)), hd2]
            dsimp only
            rw [he]
          refine ⟨fun halive => ?_, fun hdead => ?_⟩
          · have halive2 : (drain rest).2.2 = true := by
              have hx := congrArg (fun p => p.2.2) hdb
              dsimp only at hx
              rw [halive] at hx
              exact hx.symm
            have IH := (ihn rest hrest_len t).1 halive2
            rw [hdstep, IH, hdb]
            dsimp only
            rw [List.append_assoc]
          · have hdead2 : (drain rest).2.2 = false := by
              have hx := congrArg (fun p => p.2.2) hdb
              dsimp only at hx
              rw [hdead] at hx
              exact hx.symm
            have IH := (ihn rest hrest_len t).2 hdead2
            refine ⟨?_, ?_⟩
            · rw [hdstep, hdb]
              dsimp only
              rw [IH.1]
            · rw [hdstep]
              exact IH.2
        · -- the document killed the stream
          have hdb : drain buf = (ds, rest, false) := by
            rw [drain_eq, if_neg hb, hd]
            dsimp only
            rw [he]
          refine ⟨fun halive => ?_, fun _ => ?_⟩
          · rw [hdb] at halive
            exact Bool.noConfusion halive
          · rcases valStable_or_num v rest with hstab | ⟨lex, hlex⟩
            · have hd2 : rawDecode (c :: (l ++ t)) = some (v, rest ++ t) := by
                have := rawDecode_stable (t := t) hd' hstab
                rw [List.cons_append] at this
                exact this
              have hdstep : drain (buf ++ t) = (ds, rest ++ t, false) := by
                rw [drain_eq, hsw2, if_neg (List.cons_ne_nil c (l ++ t)), hd2]
                dsimp only
                rw [he]
              rw [hdstep, hdb]
              exact ⟨rfl, rfl⟩
            · -- a bare number: the extension may change the lexeme, but a
              -- number document always dies emitting nothing
              subst hlex
              have hds : ds = [] := by
                have hx : extractDoc (.num lex) = ([], true) := rfl
                rw [hx] at he
                exact (congrArg Prod.fst he).symm
              obtain ⟨lex2, rest2, hd2⟩ := rawDecode_num_stable (t := t) hd'
              rw [List.cons_append] at hd2
              have hdstep : drain (buf ++ t) = ([], rest2, false) := by
                rw [drain_eq, hsw2, if_neg (List.cons_ne_nil c (l ++ t)), hd2]
                rfl
              rw [hdstep, hdb, hds]
              exact ⟨rfl, rfl⟩

theorem utf8Decode_append (a : List Nat) : ∀ (st b : List Nat),
    utf8Decode st (a ++ b) =
      ((utf8Decode (utf8Decode st a).1 b).1,
       (utf8Decode st a).2 ++ (utf8Decode (utf8Decode st a).1 b).2) := by
  induction a with
  | nil =>
    intro st b
    rw [List.nil_append]
    rw [show utf8Decode st [] = (st, []) from rfl]
    dsimp only
    rw [List.nil_append]
  | cons x xs ih =>
    intro st b
    rw [List.cons_append, utf8Decode, utf8Decode]
    dsimp only
    rw [ih (utf8Step st x).1 b]
    dsimp only
    rw [List.append_assoc]

theorem gemFeed_two (st : GemState) (a b : List Nat) :
    (gemFeed st (a ++ b)).2 =
      (gemFeed st a).2 ++ (gemFeed (gemFeed st a).1 b).2 := by
  by_cases hal : st.alive = false
  · rw [gemFeed, if_pos hal, gemFeed, if_pos hal]
    dsimp only
    rw [gemFeed, if_pos hal]
    rfl
  · by_cases ha : a = []
    · subst ha
      rw [List.nil_append]
      have h0 : gemFeed st [] = (st, []) := by
        rw [gemFeed, if_neg hal, if_pos rfl]
      rw [h0]
      rfl
    · by_cases hb : b = []
      · subst hb
        rw [List.append_nil]
        have h2 : gemFeed (gemFeed st a).1 [] = ((gemFeed st a).1, []) := by
          rw [gemFeed]
          by_cases h : (gemFeed st a).1.alive = false
          · rw [if_pos h]
          · rw [if_neg h, if_pos rfl]
        rw [h2, List.append_nil]
      · have hab : ¬(a ++ b = []) := by
          intro hx
          exact ha (List.append_eq_nil.mp hx).1
        rw [gemFeed, if_neg hal, if_neg hab, gemFeed, if_neg hal, if_neg ha]
        dsimp only
        rw [utf8Decode_append a st.pending b]
        dsimp only
        set outA := (utf8Decode st.pending a).2 with houtA
        set p1 := (utf8Decode st.pending a).1 with hp1
        set outB := (utf8Decode p1 b).2 with houtB
        rw [← List.append_assoc]
        have hDA := drain_append (st.buffer ++ outA).length (st.buffer ++ outA)
          le_rfl outB
        by_cases halv : (drain (st.buffer ++ outA)).2.2 = true
        · have hkey := hDA.1 halv
          rw [hkey]
          dsimp only
          rw [gemFeed]
          rw [if_neg (by dsimp only; rw [halv]; exact Bool.noConfusion),
            if_neg hb]
        · have hdead : (drain (st.buffer ++ outA)).2.2 = false :=
            Bool.not_eq_true _ ▸ eq_false_of_ne_true halv
          have hkey := hDA.2 hdead
          rw [hkey.1]
          rw [gemFeed, if_pos (by dsimp only; rw [hdead])]
          dsimp only
          rw [List.append_nil]

theorem gemFeedList_join : ∀ (chunks : List (List Nat)) (st : GemState),
    (gemFeedList st chunks).2 = (gemFeed st chunks.flatten).2 := by
  intro chunks
  induction chunks with
  | nil =>
    intro st
    rw [gemFeedList, List.flatten_nil, gemFeed]
    by_cases h : st.alive = false
    · rw [if_pos h]
    · rw [if_neg h, if_pos rfl]
  | cons c rest ih =>
    intro st
    rw [gemFeedList, List.flatten_cons, gemFeed_two st c rest.flatten]
    dsimp only
    rw [ih (gemFeed st c).1]

/-- The two-document concatenated-JSON input with texts `He` and `llo`
(ASCII, so its bytes are its code points). -/
def heLloInput : List Nat :=
  strCodes "\x7b\"candidates\":[\x7b\"content\":\x7b\"parts\":[\x7b\"text\":\"He\"\x7d]\x7d\x7d]\x7d\x7b\"candidates\":[\x7b\"content\":\x7b\"parts\":[\x7b\"text\":\"llo\"\x7d]\x7d\x7d]\x7d"

/-- C1: feeding the concatenated-JSON (Gemini) decoder a byte sequence
split at arbitrary offsets across successive feed calls — any chunking,
including one byte at a time — yields the same ordered sequence of text
deltas as feeding the concatenation all at once; in particular the
two-document input with texts `He` and `llo` split at an arbitrary byte
offset across two feed calls yields the deltas `He` then `llo`, in that
order, regardless of the split point. -/
theorem gemini_split_invariance :
    (∀ (chunks : List (List Nat)),
      (gemFeedList gemInit chunks).2 = (gemFeed gemInit chunks.flatten).2) ∧
    (∀ k : Nat,
      (gemFeedList gemInit [heLloInput.take k, heLloInput.drop k]).2 =
        [.str (strCodes "He"), .str (strCodes "llo")]) := by
  refine ⟨fun chunks => gemFeedList_join chunks gemInit, fun k => ?_⟩
  rw [gemFeedList_join]
  simp only [List.flatten_cons, List.flatten_nil, List.append_nil]
  rw [List.take_append_drop]
  rfl

theorem splitNl_none_no_nl : ∀ buf : List Nat, splitNl buf = none →
    (10 : Nat) ∉ buf := by
  intro buf
  induction buf with
  | nil =>
    intro _ hmem
    exact absurd hmem (by simp)
  | cons c rest ih =>
    intro h hmem
    rw [splitNl] at h
    by_cases hc : c = 10
    · rw [if_pos hc] at h
      exact Option.noConfusion h
    · rw [if_neg hc] at h
      rcases hs : splitNl rest with _ | p
      · rcases List.mem_cons.mp hmem with h1 | h2
        · exact hc h1.symm
        · exact ih hs h2
      · rw [hs] at h
        simp at h

theorem splitNl_len : ∀ (buf : List Nat) (p : List Nat × List Nat),
    splitNl buf = some p → p.2.length < buf.length := by
  intro buf
  induction buf with
  | nil =>
    intro p h
    exact Option.noConfusion h
  | cons c rest ih =>
    intro p h
    rw [splitNl] at h
    by_cases hc : c = 10
    · rw [if_pos hc] at h
      obtain rfl : ([], rest) = p := Option.some.inj h
      simp
    · rw [if_neg hc] at h
      rcases hs : splitNl rest with _ | q
      · rw [hs] at h
        exact Option.noConfusion h
      · rw [hs] at h
        simp only [Option.map_some', Option.some.injEq] at h
        subst h
        have := ih q hs
        simp only [List.length_cons]
        omega

theorem splitLinesGo_residual : ∀ (f : Nat) (buf : List Nat), buf.length < f →
    splitNl (splitLinesGo f buf).2 = none := by
  intro f
  induction f with
  | zero =>
    intro buf h
    omega
  | succ f ih =>
    intro buf h
    rw [splitLinesGo]
    rcases hs : splitNl buf with _ | ⟨line, rest⟩
    · exact hs
    · dsimp only
      apply ih
      have := splitNl_len buf (line, rest) hs
      dsimp only at this
      omega

theorem splitLines_no_nl (buf : List Nat) : (10 : Nat) ∉ (splitLines buf).2 :=
  splitNl_none_no_nl _
    (splitLinesGo_residual (buf.length + 1) buf (Nat.lt_succ_self _))

theorem sseFeed_no_nl {st : SseState} (hst : (10 : Nat) ∉ st.buffer)
    (c : List Nat) : (10 : Nat) ∉ (sseFeed st c).1.buffer := by
  rw [sseFeed]
  by_cases h1 : st.mode ≠ .alive
  · rw [if_pos h1]
    exact hst
  · rw [if_neg h1]
    by_cases h2 : c = []
    · rw [if_pos h2]
      exact hst
    · rw [if_neg h2]
      dsimp only
      exact splitLines_no_nl (st.buffer ++ c)

theorem sseFeedList_no_nl : ∀ (chunks : List (List Nat)) (st : SseState),
    (10 : Nat) ∉ st.buffer → (10 : Nat) ∉ (sseFeedList st chunks).1.buffer := by
  intro chunks
  induction chunks with
  | nil =>
    intro st h
    exact h
  | cons c rest ih =>
    intro st h
    rw [sseFeedList]
    dsimp only
    exact ih (sseFeed st c).1 (sseFeed_no_nl h c)

theorem gemFeed_stalled {st : GemState}
    (hst : st.alive = true → drainStalled st.buffer) (c : List Nat) :
    (gemFeed st c).1.alive = true → drainStalled (gemFeed st c).1.buffer := by
  rw [gemFeed]
  by_cases h1 : st.alive = false
  · rw [if_pos h1]
    exact hst
  · rw [if_neg h1]
    by_cases h2 : c = []
    · rw [if_pos h2]
      exact hst
    · rw [if_neg h2]
      dsimp only
      intro halive
      exact drain_residual (st.buffer ++ (utf8Decode st.pending c).2).length
        (st.buffer ++ (utf8Decode st.pending c).2) le_rfl
        (drain (st.buffer ++ (utf8Decode st.pending c).2)).1
        (drain (st.buffer ++ (utf8Decode st.pending c).2)).2.1
        (by rw [← halive])

theorem gemFeedList_stalled : ∀ (chunks : List (List Nat)) (st : GemState),
    (st.alive = true → drainStalled st.buffer) →
    ((gemFeedList st chunks).1.alive = true →
      drainStalled (gemFeedList st chunks).1.buffer) := by
  intro chunks
  induction chunks with
  | nil =>
    intro st h
    exact h
  | cons c rest ih =>
    intro st h
    rw [gemFeedList]
    dsimp only
    exact ih (gemFeed st c).1 (gemFeed_stalled h c)

/-- C9: after any sequence of fed chunks, the concatenated-JSON decoder
that is still alive retains a buffer holding no complete JSON document —
it is empty, or starts at a non-whitespace character from which no
document parses, i.e. at most one incomplete document; and the
event-stream decoder retains a buffer with no newline byte, i.e. at most
one incomplete line.  In both cases every complete unit was drained
before the next feed. -/
theorem buffer_invariants :
    (∀ chunks : List (List Nat),
      (gemFeedList gemInit chunks).1.alive = true →
        drainStalled (gemFeedList gemInit chunks).1.buffer) ∧
    (∀ chunks : List (List Nat),
      (10 : Nat) ∉ (sseFeedList sseInit chunks).1.buffer) := by
  constructor
  · intro chunks
    exact gemFeedList_stalled chunks gemInit (fun _ => Or.inl rfl)
  · intro chunks
    exact sseFeedList_no_nl chunks sseInit (by simp [sseInit])

/-- Witness for C9: a truncated JSON object leaves the gemini decoder
alive with a stalled buffer, and a newline-free chunk leaves the
event-stream decoder with a newline-free buffer. -/
theorem buffer_invariants_witness :
    ((gemFeedList gemInit [strCodes "\x7b\"a\": 1"]).1.alive = true ∧
     drainStalled (gemFeedList gemInit [strCodes "\x7b\"a\": 1"]).1.buffer) ∧
    (10 : Nat) ∉ (sseFeedList sseInit [strCodes "data: x"]).1.buffer :=
  ⟨⟨rfl, buffer_invariants.1 [strCodes "\x7b\"a\": 1"] rfl⟩,
   buffer_invariants.2 [strCodes "data: x"]⟩

end AIAnswers
